import Mathlib

/-!
Verification of the fastText `Dictionary` component (src/src/dictionary.cc)
against its natural-language specification.

The C++ code is shallowly embedded: byte strings are `List Nat` (each element
a byte value < 256), machine integers are `Nat`/`Int` with explicit reduction
modulo `2^32`/`2^64` where the source relies on unsigned wraparound, and the
open-addressing probe loop is given explicit fuel (the loop in the source
terminates only when the table holds an empty slot, so fallible operations
return `Option`).
-/

namespace fasttext

/-- Modelled from the spec: the fixed capacity of the open-addressing
`HashIndex` (`MAX_VOCAB_SIZE` in dictionary.h, which is not part of the
provided sources; the spec only says "a large constant capacity").  The value
is the one fastText ships with; no theorem below depends on the exact value,
only on its positivity. -/
def MAX_VOCAB_SIZE : Nat := 30000000

/-- Modelled from the spec: maximum token count of a line for
non-fully-supervised models (`MAX_LINE_SIZE` in dictionary.h, not in the
provided sources). -/
def MAX_LINE_SIZE : Nat := 1024

/-- `Dictionary::EOS = "</s>"`, as bytes. -/
def EOS : List Nat := [60, 47, 115, 62]

/-- `Dictionary::BOW = "<"`, as bytes. -/
def BOW : List Nat := [60]

/-- `Dictionary::EOW = ">"`, as bytes. -/
def EOW : List Nat := [62]

/-- `uint32_t(str[i])` where `str[i]` has type `char`: on the targeted
platforms `char` is signed, so a byte `b ≥ 0x80` is sign-extended before the
conversion to `uint32_t`, yielding `2^32 - 256 + b`. -/
def u32ofChar (b : Nat) : Nat := if b < 128 then b else 4294967040 + b

/-- `Dictionary::hash` (dictionary.cc:120-127): FNV-1a-style fold,
`h = (h ^ uint32_t(str[i])) * 16777619` on `uint32_t`, offset basis
2166136261. -/
def hash (s : List Nat) : Nat :=
  s.foldl (fun h b => ((h ^^^ u32ofChar b) * 16777619) % 4294967296) 2166136261

/-- The hash described by the words of the claim: a 32-bit FNV-1a fold that
XORs the plain byte value (no sign extension) into the accumulator. -/
def fnv1a32 (s : List Nat) : Nat :=
  s.foldl (fun h b => ((h ^^^ b) * 16777619) % 4294967296) 2166136261

/-- `entry_type` (dictionary.h): word or label. -/
inductive entry_type : Type
  | word : entry_type
  | label : entry_type
deriving DecidableEq, Repr

/-- Numeric value of the `entry_type` tag (`word = 0`, `label = 1`), used by
the comparator of `threshold` and by the binary codec. -/
def entry_type.tag : entry_type → Nat
  | entry_type.word => 0
  | entry_type.label => 1

/-- `model_name` (args.h): only `sup` is distinguished by dictionary.cc. -/
inductive model_name : Type
  | cbow : model_name
  | sg : model_name
  | sup : model_name
deriving DecidableEq, Repr

/-- `entry` (dictionary.h): word text, count, type, cached subword ids. -/
structure entry : Type where
  word : List Nat
  count : Nat
  type : entry_type
  subwords : List Nat := []
deriving DecidableEq, Repr

/-- The slice of `Args` that dictionary.cc reads. -/
structure Args : Type where
  label : List Nat
  model : model_name
  minn : Nat
  maxn : Nat
  bucket : Nat
  wordNgrams : Nat
deriving DecidableEq, Repr

/-- The state of a `Dictionary`.  `word2int_` is the fixed-capacity open
addressing table (only indices `< MAX_VOCAB_SIZE` are ever consulted);
`quantidx_` models the `unordered_map` as an association list in insertion
order; `pdiscard_` holds the subsampling thresholds, kept abstract as
rationals because the source computes them in floating point. -/
structure Dict : Type where
  args : Args
  word2int : Nat → Int
  words : List entry
  size : Nat
  nwords : Nat
  nlabels : Nat
  ntokens : Nat
  quant : Bool
  quantidx : List (Nat × Nat)
  pdiscard : Nat → ℚ

/-- The word stored at table value `v`: the source reads
`words_[word2int_[h]].word`; an out-of-range index (impossible under the
consistency invariant) is modelled as `none`. -/
def wordAt (ws : List entry) (v : Int) : Option (List Nat) :=
  if v < 0 then none else (ws.get? v.toNat).map entry.word

/-- The stop condition of the probe loop of `Dictionary::find`
(dictionary.cc:31): the slot is empty or holds an entry whose word matches. -/
def probeStop (tbl : Nat → Int) (ws : List entry) (w : List Nat) (h : Nat) : Bool :=
  tbl h = -1 || decide (wordAt ws (tbl h) = some w)

/-- The probe loop of `Dictionary::find`, with explicit fuel: `none` models
the infinite loop the source would enter on a full table with no match. -/
def probe (tbl : Nat → Int) (ws : List entry) (w : List Nat) :
    Nat → Nat → Option Nat
  | _, 0 => none
  | h, fuel + 1 =>
    if probeStop tbl ws w h then some h
    else probe tbl ws w ((h + 1) % MAX_VOCAB_SIZE) fuel

/-- `Dictionary::find` (dictionary.cc:29-35): probe from `hash(w) % capacity`.
Fuel `MAX_VOCAB_SIZE` suffices whenever the table has an empty slot. -/
def find (d : Dict) (w : List Nat) : Option Nat :=
  probe d.word2int d.words w (hash w % MAX_VOCAB_SIZE) MAX_VOCAB_SIZE

/-- `Dictionary::getId` (dictionary.cc:103-106). -/
def getId (d : Dict) (w : List Nat) : Option Int :=
  (find d w).map d.word2int

/-- `Dictionary::add` (dictionary.cc:37-50): `none` when the probe loop would
not terminate. -/
def add (d : Dict) (w : List Nat) : Option Dict :=
  (find d w).map fun h =>
    let d := { d with ntokens := d.ntokens + 1 }
    if d.word2int h = -1 then
      let e : entry :=
        { word := w, count := 1,
          type := if d.args.label.isPrefixOf w then entry_type.label
                  else entry_type.word }
      { d with words := d.words ++ [e],
               word2int := fun h2 => if h2 = h then (d.size : Int) else d.word2int h2,
               size := d.size + 1 }
    else
      let i := (d.word2int h).toNat
      match d.words.get? i with
      | some e => { d with words := d.words.set i { e with count := e.count + 1 } }
      | none => d

/-- The non-strict order induced by the comparator passed to `std::sort` in
`Dictionary::threshold` (dictionary.cc:229-232): type tag ascending, then
count descending.  `x ≤ y` here is `¬ comp(y, x)`, the postcondition
`std::sort` establishes between adjacent elements. -/
def entryLe (e1 e2 : entry) : Prop :=
  e1.type.tag < e2.type.tag ∨ (e1.type.tag = e2.type.tag ∧ e2.count ≤ e1.count)

instance : DecidableRel entryLe := fun e1 e2 => by
  unfold entryLe; infer_instance

instance : IsTotal entry entryLe where
  total e1 e2 := by unfold entryLe; omega

instance : IsTrans entry entryLe where
  trans e1 e2 e3 h1 h2 := by unfold entryLe at *; omega

/-- The removal predicate of `Dictionary::threshold` (dictionary.cc:233-236):
a word below `t` or a label below `tl`. -/
def thresholdDiscards (t tl : Int) (e : entry) : Bool :=
  (e.type = entry_type.word && (e.count : Int) < t) ||
  (e.type = entry_type.label && (e.count : Int) < tl)

/-- State of the index-rebuild loop at the end of `Dictionary::threshold`
(dictionary.cc:238-247). -/
structure RebuildState : Type where
  tbl : Nat → Int
  size : Nat
  nwords : Nat
  nlabels : Nat

/-- One step of the index-rebuild loop of `Dictionary::threshold`
(dictionary.cc:242-247): find the entry's slot (probing against the new entry
list `ws`), store its position, and count its type. -/
def rebuildStep (ws : List entry) (st : RebuildState) (e : entry) :
    Option RebuildState :=
  (probe st.tbl ws e.word (hash e.word % MAX_VOCAB_SIZE) MAX_VOCAB_SIZE).map
    fun h =>
      { tbl := fun h2 => if h2 = h then (st.size : Int) else st.tbl h2,
        size := st.size + 1,
        nwords := st.nwords + (if e.type = entry_type.word then 1 else 0),
        nlabels := st.nlabels + (if e.type = entry_type.label then 1 else 0) }

/-- The index-rebuild loop of `Dictionary::threshold`: for each surviving
entry in order, find its slot in the (initially cleared) table and store its
new position; count words and labels. -/
def rebuild (ws : List entry) : Option RebuildState :=
  ws.foldlM (rebuildStep ws)
    { tbl := fun _ => -1, size := 0, nwords := 0, nlabels := 0 }

/-- `Dictionary::threshold` (dictionary.cc:228-248).  `std::sort` with a
strict weak order is modelled by insertion sort on the induced non-strict
order (the source leaves the relative order of tied entries unspecified). -/
def threshold (d : Dict) (t tl : Int) : Option Dict :=
  let kept := (d.words.insertionSort entryLe).filter
    (fun e => !thresholdDiscards t tl e)
  (rebuild kept).map fun st =>
    { d with words := kept, word2int := st.tbl,
             size := st.size, nwords := st.nwords, nlabels := st.nlabels }

/-- A UTF-8 continuation byte: `(b & 0xC0) == 0x80` (dictionary.cc:134). -/
def contByte (b : Nat) : Bool := b &&& 192 = 128

/-- Splits off the maximal leading run of continuation bytes: the inner
`while` of `computeNgrams` (dictionary.cc:156-158). -/
def spanCont : List Nat → List Nat × List Nat
  | [] => ([], [])
  | b :: r =>
    if contByte b then
      let p := spanCont r
      (b :: p.1, p.2)
    else ([], b :: r)

/-- The inner loop of `Dictionary::computeNgrams` (dictionary.cc:154-163):
starting at a codepoint, grow the candidate n-gram one codepoint at a time
while bytes remain and `n ≤ maxn`; emit `nwords + hash(ngram) % bucket` when
`n ≥ minn` and the n-gram is not a length-1 fragment at the start or end
boundary.  The loop runs at most `maxn` iterations, made explicit by fuel. -/
def ngramLoop (args : Args) (nw : Nat) (atStart : Bool) :
    Nat → List Nat → Nat → List Nat → List Nat
  | 0, _, _, _ => []
  | _ + 1, [], _, _ => []
  | fuel + 1, b :: r, n, ngram =>
    if args.maxn < n then []
    else
      let p := spanCont r
      let ngram2 := ngram ++ b :: p.1
      (if args.minn ≤ n ∧ ¬(n = 1 ∧ (atStart ∨ p.2 = [])) then
        [nw + hash ngram2 % args.bucket]
      else []) ++ ngramLoop args nw atStart fuel p.2 (n + 1) ngram2

/-- The outer loop of `Dictionary::computeNgrams` (dictionary.cc:151-164):
iterate over byte positions, skipping continuation bytes; `atStart` records
whether the position is byte 0 (`i == 0` in the source). -/
def computeNgramsAux (args : Args) (nw : Nat) : List Nat → Bool → List Nat
  | [], _ => []
  | b :: r, atStart =>
    (if contByte b then []
     else ngramLoop args nw atStart (args.maxn + 1) (b :: r) 1 [])
    ++ computeNgramsAux args nw r false

/-- `Dictionary::computeNgrams` (dictionary.cc:149-165), the id-only
variant. -/
def computeNgrams (args : Args) (nw : Nat) (word : List Nat) : List Nat :=
  computeNgramsAux args nw word true

/-- `Dictionary::initNgrams` (dictionary.cc:167-173): for every entry with
position below `size_`, append the position itself followed by the character
n-grams of the boundary-marked word to the subword cache. -/
def initNgrams (d : Dict) : Dict :=
  { d with words := d.words.enum.map fun p =>
      if p.1 < d.size then
        { p.2 with subwords := p.2.subwords ++
            p.1 :: computeNgrams d.args d.nwords (BOW ++ p.2.word ++ EOW) }
      else p.2 }

/-- The delimiter set of `Dictionary::readWord` (dictionary.cc:181): space,
newline, carriage return, tab, vertical tab, form feed, NUL. -/
def isDelim (b : Nat) : Bool :=
  b = 32 || b = 10 || b = 13 || b = 9 || b = 11 || b = 12 || b = 0

/-- Result of one `readWord` call: whether a token was produced, the token,
the remaining bytes, and whether `eofbit` is now set. -/
structure ReadWordRes : Type where
  found : Bool
  word : List Nat
  rest : List Nat
  eofbit : Bool
deriving DecidableEq, Repr

/-- The loop of `Dictionary::readWord` (dictionary.cc:175-199), over the
remaining bytes of the stream; `acc` is the pending token in reverse.
`sbumpc` yields the next byte, but the source stores it in a (signed) `char`
and compares with `EOF`, so a byte 0xFF is mistaken for end of stream: the
loop exits and the trailing `in.get()` consumes one further byte (or sets
`eofbit` when none is left).  At true end of stream `in.get()` sets `eofbit`
and the pending token, if non-empty, is returned. -/
def readWordAux : List Nat → List Nat → ReadWordRes
  | [], acc => ⟨!acc.isEmpty, acc.reverse, [], true⟩
  | b :: rest, acc =>
    if b = 255 then
      match rest with
      | [] => ⟨!acc.isEmpty, acc.reverse, [], true⟩
      | _ :: r => ⟨!acc.isEmpty, acc.reverse, r, false⟩
    else if isDelim b then
      if acc.isEmpty then
        if b = 10 then ⟨true, EOS, rest, false⟩
        else readWordAux rest acc
      else
        if b = 10 then ⟨true, acc.reverse, b :: rest, false⟩
        else ⟨true, acc.reverse, rest, false⟩
    else readWordAux rest (b :: acc)

/-- `Dictionary::readWord` on a stream with the given remaining bytes. -/
def readWord (s : List Nat) : ReadWordRes := readWordAux s []

/-- An input stream: the bytes not yet consumed, and the `eofbit` flag. -/
structure Stream : Type where
  rem : List Nat
  eofbit : Bool
deriving DecidableEq, Repr

/-- The token-gathering loop of the line-reading `getLine`
(dictionary.cc:292-296): collect tokens until the end-marker is read, the
line-size cap is hit (non-`sup` models only), or `readWord` reports no token.
Each successful `readWord` consumes at least one byte, so fuel
`rem.length + 1` is exact. -/
def getLineTokensAux (args : Args) :
    Nat → List Nat → List (List Nat) → List (List Nat) × Stream
  | 0, s, acc => (acc.reverse, ⟨s, false⟩)
  | fuel + 1, s, acc =>
    let r := readWord s
    if r.found then
      let acc2 := r.word :: acc
      if r.word = EOS then (acc2.reverse, ⟨r.rest, r.eofbit⟩)
      else if MAX_LINE_SIZE < acc2.length ∧ args.model ≠ model_name.sup then
        (acc2.reverse, ⟨r.rest, r.eofbit⟩)
      else getLineTokensAux args fuel r.rest acc2
    else (acc.reverse, ⟨r.rest, r.eofbit⟩)

/-- The line-reading `Dictionary::getLine` (dictionary.cc:284-298): if
`eofbit` is set the stream is rewound to the start of `corpus`, then tokens
are gathered. -/
def getLineTokens (corpus : List Nat) (s : Stream) (args : Args) :
    List (List Nat) × Stream :=
  let s0 : Stream := if s.eofbit then ⟨corpus, false⟩ else s
  getLineTokensAux args (s0.rem.length + 1) s0.rem []

/-- `int32_t` value of an unsigned 32-bit quantity (`push_back` of a
`uint32_t` hash into a `vector<int32_t>` wraps into the negatives). -/
def toI32 (x : Nat) : Int :=
  if x % 4294967296 < 2147483648 then ((x % 4294967296 : Nat) : Int)
  else ((x % 4294967296 : Nat) : Int) - 4294967296

/-- `uint64_t` value of a signed 32/64-bit integer (sign extension modulo
`2^64`), as in `uint64_t h = hashes[i]` (dictionary.cc:270). -/
def toU64 (x : Int) : Nat := (x % (18446744073709551616 : Int)).toNat

/-- `Dictionary::discard` (dictionary.cc:96-101): never discard for `sup`;
otherwise discard when the draw exceeds the stored threshold. -/
def discard (d : Dict) (id : Nat) (r : ℚ) : Bool :=
  if d.args.model = model_name.sup then false else decide (d.pdiscard id < r)

/-- Accumulator of the id-converting `getLine` (dictionary.cc:300-330):
the word-id sequence, the side-channel hash list, the label ids, the count of
in-vocabulary tokens, and the number of uniform draws consumed so far. -/
structure LineIds : Type where
  words : List Int := []
  word_hashes : List Int := []
  labels : List Int := []
  ntokens : Nat := 0
  rngIdx : Nat := 0
deriving DecidableEq, Repr

/-- One iteration of the token loop of the id-converting `getLine`
(dictionary.cc:312-328).  The uniform draw is consumed exactly when the token
resolves to a word-type entry (the `&&` in the source short-circuits).
`none` models a non-terminating probe or an out-of-range entry access. -/
def lineIdsStep (d : Dict) (rng : Nat → ℚ) (st : LineIds) (tok : List Nat) :
    Option LineIds :=
  (find d tok).bind fun h =>
    if d.word2int h < 0 then
      some { st with word_hashes := st.word_hashes ++ [toI32 (hash tok)] }
    else
      (d.words.get? (d.word2int h).toNat).bind fun e =>
        if e.type = entry_type.word then
          if !discard d (d.word2int h).toNat (rng st.rngIdx) then
            some { st with ntokens := st.ntokens + 1,
                           rngIdx := st.rngIdx + 1,
                           words := st.words ++ [d.word2int h],
                           word_hashes := st.word_hashes ++ [toI32 (hash tok)] }
          else
            some { st with ntokens := st.ntokens + 1,
                           rngIdx := st.rngIdx + 1 }
        else if e.type = entry_type.label then
          some { st with ntokens := st.ntokens + 1,
                         labels := st.labels ++ [d.word2int h - (d.nwords : Int)] }
        else
          some { st with ntokens := st.ntokens + 1 }

/-- The token-classification loop of the id-converting `getLine`, over an
already-read token list. -/
def lineIds (d : Dict) (rng : Nat → ℚ) (tokens : List (List Nat)) :
    Option LineIds :=
  tokens.foldlM (lineIdsStep d rng) {}

/-- The id-converting `Dictionary::getLine` (dictionary.cc:300-330), reading
one line from the stream. -/
def getLineIds (d : Dict) (corpus : List Nat) (s : Stream) (rng : Nat → ℚ) :
    Option (LineIds × Stream) :=
  match lineIds d rng (getLineTokens corpus s d.args).1 with
  | none => none
  | some li => some (li, (getLineTokens corpus s d.args).2)

/-- Association-list lookup in the `QuantizationMap`
(`quantidx_.find(id)` / `quantidx_.at(id)`). -/
def qlookup (q : List (Nat × Nat)) (k : Nat) : Option Nat :=
  (q.find? fun p => p.1 = k).map Prod.snd

/-- The emit part of the inner loop of `Dictionary::addNgrams`
(dictionary.cc:271-280): extend the folded hash by each further token hash of
the window, reduce modulo `bucket`, gate through the `QuantizationMap` when
it is non-empty, and emit `nwords + id`. -/
def combineEmit (d : Dict) : Nat → List Int → List Int
  | _, [] => []
  | h, x :: r =>
    let h2 := (h * 116049371 + toU64 x) % 18446744073709551616
    let id := h2 % d.args.bucket
    (if d.quantidx.isEmpty then [(d.nwords : Int) + (id : Int)]
     else match qlookup d.quantidx id with
       | some v => [(d.nwords : Int) + (v : Int)]
       | none => []) ++ combineEmit d h2 r

/-- `Dictionary::addNgrams` (dictionary.cc:266-282): for every start position
`i`, fold the hashes of the window `hashes[i..i+n)` and append the resulting
feature ids to `line`. -/
def addNgrams (d : Dict) (line : List Int) (hashes : List Int) (n : Nat) :
    List Int :=
  line ++ (List.range hashes.length).flatMap fun i =>
    combineEmit d (toU64 (hashes.getD i 0))
      ((hashes.drop (i + 1)).take (n - 1))

/-- The id-converting wrapper `Dictionary::getLine` (dictionary.cc:333-350):
for `sup` models, append combined word n-gram features — computed from the
hash list when quantized and from the word-id sequence itself when not. -/
def getLineSup (d : Dict) (corpus : List Nat) (s : Stream) (rng : Nat → ℚ) :
    Option (List Int × List Int × Nat × Stream) := do
  let p ← getLineIds d corpus s rng
  let li := p.1
  let ws :=
    if d.args.model = model_name.sup then
      if d.quant then addNgrams d li.words li.word_hashes d.args.wordNgrams
      else li.words ++ addNgrams d [] li.words d.args.wordNgrams
    else li.words
  return (ws, li.labels, li.ntokens, p.2)

/-- `k` bytes of `x`, little-endian (an `out.write` of a `k`-byte integer). -/
def bytesLE : Nat → Nat → List Nat
  | 0, _ => []
  | k + 1, x => x % 256 :: bytesLE k (x / 256)

/-- Reads a `k`-byte little-endian integer; `none` on a truncated stream. -/
def readLE : Nat → List Nat → Option (Nat × List Nat)
  | 0, bs => some (0, bs)
  | _ + 1, [] => none
  | k + 1, b :: bs => (readLE k bs).map fun p => (b + 256 * p.1, p.2)

/-- The serialized form of one entry (dictionary.cc:363-369): the word bytes,
a NUL terminator, the count as 64 bits, and the type tag.  The tag width is
one byte: `entry_type` is an `int8_t`-based enum in dictionary.h, which is
not part of the provided sources; the spec only says "type tag (fixed
width)", and no theorem depends on the width. -/
def encodeEntry (e : entry) : List Nat :=
  e.word ++ [0] ++ bytesLE 8 e.count ++ [e.type.tag]

/-- `Dictionary::save` (dictionary.cc:358-378): the four header fields, the
entries with positions below `size_` in order, and — when quantized — the
`QuantizationMap` preceded by its size (a `std::size_t`, eight bytes). -/
def save (d : Dict) : List Nat :=
  bytesLE 4 d.size ++ bytesLE 4 d.nwords ++ bytesLE 4 d.nlabels ++
  bytesLE 8 d.ntokens ++
  (d.words.take d.size).flatMap encodeEntry ++
  (if d.quant then
    bytesLE 8 d.quantidx.length ++
      d.quantidx.flatMap (fun p => bytesLE 4 p.1 ++ bytesLE 4 p.2)
  else [])

/-- The word-reading loop of `Dictionary::load` (dictionary.cc:390-392):
bytes up to the next NUL.  `none` models the infinite loop the source enters
when end of stream is hit before a NUL (`in.get()` then returns `EOF ≠ 0`
forever). -/
def readCStr : List Nat → Option (List Nat × List Nat)
  | [] => none
  | 0 :: bs => some ([], bs)
  | b :: bs => (readCStr bs).map fun p => (b :: p.1, p.2)

/-- Decodes a type tag; a value outside the enum's domain has no defined
meaning. -/
def tagToType : Nat → Option entry_type
  | 0 => some entry_type.word
  | 1 => some entry_type.label
  | _ => none

/-- The entry-reading loop of `Dictionary::load` (dictionary.cc:387-397),
without the index updates. -/
def loadEntries : Nat → List Nat → Option (List entry × List Nat)
  | 0, bs => some ([], bs)
  | k + 1, bs => do
    let (w, bs) ← readCStr bs
    let (c, bs) ← readLE 8 bs
    let (tg, bs) ← readLE 1 bs
    let ty ← tagToType tg
    let (es, bs) ← loadEntries k bs
    return ({ word := w, count := c, type := ty } :: es, bs)

/-- The index updates of `Dictionary::load`: on the cleared table,
`word2int_[find(e.word)] = i` for each entry in stored order (every table
value is a position of an earlier entry, so probing against the full entry
list coincides with probing against the entries pushed so far). -/
def loadIndex (ws : List entry) : Option (Nat → Int) :=
  (ws.foldlM
    (fun (st : (Nat → Int) × Nat) e =>
      (probe st.1 ws e.word (hash e.word % MAX_VOCAB_SIZE) MAX_VOCAB_SIZE).map
        fun h => (fun h2 => if h2 = h then (st.2 : Int) else st.1 h2, st.2 + 1))
    (fun _ => (-1 : Int), 0)).map Prod.fst

/-- Insertion into the modelled `unordered_map` (`quantidx_[k] = v`):
overwrite the key if present, else append. -/
def assocSet (q : List (Nat × Nat)) (k v : Nat) : List (Nat × Nat) :=
  if (q.find? fun p => p.1 = k).isSome then
    q.map fun p => if p.1 = k then (k, v) else p
  else q ++ [(k, v)]

/-- The `QuantizationMap`-reading loop of `Dictionary::load`
(dictionary.cc:398-407). -/
def loadQuant : Nat → List (Nat × Nat) → List Nat →
    Option (List (Nat × Nat) × List Nat)
  | 0, q, bs => some (q, bs)
  | k + 1, q, bs => do
    let (kk, bs) ← readLE 4 bs
    let (vv, bs) ← readLE 4 bs
    loadQuant k (assocSet q kk vv) bs

/-- The `QuantizationMap` section of `Dictionary::load` (dictionary.cc:
398-407): its size header followed by that many pairs, inserted into the
(uncleared) member map `q0`. -/
def loadQuantSection (q0 : List (Nat × Nat)) (bs : List Nat) :
    Option (List (Nat × Nat)) :=
  match readLE 8 bs with
  | none => none
  | some (n, bs) =>
    match loadQuant n q0 bs with
    | none => none
    | some (q, _) => some q

/-- `Dictionary::load` (dictionary.cc:380-410): clear the store and the
table, read the header, the entries and (when `quant_` is set) the
`QuantizationMap`, rebuild the index, then recompute the subword caches with
`initNgrams`.  `initTableDiscard` recomputes `pdiscard_` in floating point;
that recomputation is outside this embedding and the field is left
untouched. -/
def load (d : Dict) (input : List Nat) : Option Dict := do
  let (size, bs) ← readLE 4 input
  let (nwords, bs) ← readLE 4 bs
  let (nlabels, bs) ← readLE 4 bs
  let (ntokens, bs) ← readLE 8 bs
  let (ws, bs) ← loadEntries size bs
  let tbl ← loadIndex ws
  let q ← if d.quant then loadQuantSection d.quantidx bs
    else pure d.quantidx
  return initNgrams
    { d with words := ws, word2int := tbl, size := size, nwords := nwords,
             nlabels := nlabels, ntokens := ntokens, quantidx := q }

/-- The corpus-replay tally: for each surviving n-gram id (outer key), the
co-occurrence counts of raw-hash-derived combined ids (inner key), both
`unordered_map`s modelled as association lists in insertion order. -/
abbrev CMap := List (Int × List (Int × Nat))

/-- `convertMap[*it] = {}` for every requested id (dictionary.cc:450-452):
a repeated key is reset to the empty inner map. -/
def cmInit (ngramidx : List Int) : CMap :=
  ngramidx.foldl
    (fun m k =>
      if (m.find? fun p => p.1 = k).isSome then
        m.map fun p => if p.1 = k then (k, []) else p
      else m ++ [(k, [])])
    []

/-- `convertMap[oh][nh]++` on the inner map: increment, creating the key with
count 1 when absent. -/
def bumpInner (inner : List (Int × Nat)) (nh : Int) : List (Int × Nat) :=
  if (inner.find? fun p => p.1 = nh).isSome then
    inner.map fun p => if p.1 = nh then (nh, p.2 + 1) else p
  else inner ++ [(nh, 1)]

/-- One tallying pass over a line (dictionary.cc:463-467): for each position
of `oldhashes`, skip ids absent from the map, else bump the count of the
co-occurring `newhashes` entry.  Reading past the end of `newhashes` (the
`assert` of line 462 is the only guard in the source) is `none`. -/
def bumpAll (m0 : CMap) (oldh newh : List Int) : Option CMap :=
  (List.range oldh.length).foldlM
    (fun m i => do
      let oh ← oldh.get? i
      if (m.find? fun p => p.1 = oh).isSome then do
        let nh ← newh.get? i
        pure (bumpInner' m oh nh)
      else pure m)
    m0
where
  /-- `convertMap[oh][nh]++` on the outer map (the key is present). -/
  bumpInner' (m : CMap) (oh nh : Int) : CMap :=
    m.map fun p => if p.1 = oh then (oh, bumpInner p.2 nh) else p

/-- The corpus-replay loop of `Dictionary::convertNgrams`
(dictionary.cc:456-468): while bytes remain, read and convert one line with
the pre-prune store (and pre-prune `QuantizationMap`), skip empty lines, and
tally old-id/new-id co-occurrences.  Each iteration consumes at least one
byte, so fuel `corpus.length + 1` is sufficient; `none` on exhaustion models
non-termination. -/
def replayLoop (d : Dict) (corpus : List Nat) (rng : Nat → ℚ) :
    Nat → Stream → Nat → CMap → Option CMap
  | 0, _, _, _ => none
  | fuel + 1, s, draws, m =>
    if s.rem.isEmpty then some m
    else do
      let p ← getLineIds d corpus s (fun k => rng (draws + k))
      let li := p.1
      if li.words.isEmpty then replayLoop d corpus rng fuel p.2 (draws + li.rngIdx) m
      else do
        let oldh := addNgrams d [] li.words d.args.wordNgrams
        let newh := addNgrams d [] li.word_hashes d.args.wordNgrams
        let m2 ← bumpAll m oldh newh
        replayLoop d corpus rng fuel p.2 (draws + li.rngIdx) m2

/-- The argmax scan over an inner tally (dictionary.cc:476-482): starting
from `count = -1`, take the first strict improvement in iteration order.
`none` models the uninitialized `newhash` the source is left with when the
tally is empty. -/
def pickMax : List (Int × Nat) → Option Int
  | [] => none
  | (k, c) :: r => some (go k c r)
where
  go (k : Int) (c : Nat) : List (Int × Nat) → Int
    | [] => k
    | (k2, c2) :: r => if c < c2 then go k2 c2 r else go k c r

/-- The `QuantizationMap`-building loop of `Dictionary::convertNgrams`
(dictionary.cc:471-490): for each requested id in order, pick the most
frequent co-occurring raw-hash id, subtract `nwords`, and assign the next
compact index to each key not yet present, keeping the requested id. -/
def buildQuantLoop (nw : Nat) (m : CMap) :
    List Int → List (Nat × Nat) → Nat → List Int →
    Option (List (Nat × Nat) × List Int)
  | [], q, _, rem => some (q, rem.reverse)
  | it :: rest, q, size, rem => do
    let cm := ((m.find? fun p => p.1 = it).map Prod.snd).getD []
    let nh ← pickMax cm
    let key := (nh - (nw : Int)).toNat
    if (qlookup q key).isSome then buildQuantLoop nw m rest q size rem
    else buildQuantLoop nw m rest (q ++ [(key, size)]) (size + 1) (it :: rem)

/-- `Dictionary::convertNgrams` (dictionary.cc:441-491): replay the corpus
named by `args_->input` (its bytes are the `corpus` argument), tally
co-occurrences, clear `quantidx_`, and rebuild it together with the surviving
id list. -/
def convertNgrams (d : Dict) (ngramidx : List Int) (corpus : List Nat)
    (rng : Nat → ℚ) : Option (Dict × List Int) :=
  match replayLoop d corpus rng (corpus.length + 1) ⟨corpus, false⟩ 0
    (cmInit ngramidx) with
  | none => none
  | some m =>
    match buildQuantLoop d.nwords m ngramidx [] 0 [] with
    | none => none
    | some (q, rem) => some ({ d with quantidx := q }, rem)

/-- State of the store-rewrite loop of `Dictionary::prune`: the entry array
being compacted in place, the table being refilled, and the write/match
cursor `j`. -/
structure PruneState : Type where
  arr : List entry
  tbl : Nat → Int
  j : Nat

/-- One iteration of the store-rewrite loop of `Dictionary::prune`
(dictionary.cc:429-435) at position `i`: keep the entry when it is a label or
when the cursor into the sorted selected-word list matches `i`; on keep,
write it at the cursor, re-find its slot, and advance the cursor. -/
def pruneStep (sel : List Int) (st : PruneState) (i : Nat) :
    Option PruneState :=
  match st.arr.get? i with
  | none => none
  | some e =>
    if e.type = entry_type.label ∨
        (st.j < sel.length ∧ sel.get? st.j = some (i : Int)) then
      let arr := st.arr.set st.j e
      match probe st.tbl arr e.word (hash e.word % MAX_VOCAB_SIZE)
        MAX_VOCAB_SIZE with
      | none => none
      | some h =>
        some { arr := arr,
               tbl := fun h2 => if h2 = h then (st.j : Int) else st.tbl h2,
               j := st.j + 1 }
    else some st

/-- The store-rewrite loop of `Dictionary::prune` (dictionary.cc:426-438):
with the table cleared, scan positions in order, compacting kept entries in
place; then truncate the store at the new `size`. -/
def pruneCore (d : Dict) (sel : List Int) : Option Dict :=
  ((List.range d.words.length).foldlM (pruneStep sel)
    { arr := d.words, tbl := fun _ => (-1 : Int), j := 0 }).map
    fun st =>
      { d with words := st.arr.take (sel.length + d.nlabels),
               word2int := st.tbl,
               nwords := sel.length,
               size := sel.length + d.nlabels }

/-- The `words` partition of `Dictionary::prune` (dictionary.cc:413-418):
the selected ids below `nwords`, sorted ascending (`std::sort` on plain
integers). -/
def pruneSel (d : Dict) (idx : List Int) : List Int :=
  (idx.filter fun i => i < (d.nwords : Int)).insertionSort (· ≤ ·)

/-- The `ngrams` partition of `Dictionary::prune`: the selected ids not below
`nwords`. -/
def pruneNgrams (d : Dict) (idx : List Int) : List Int :=
  idx.filter fun i => ¬ i < (d.nwords : Int)

/-- `Dictionary::prune` (dictionary.cc:412-439): partition the selected ids
into word positions and n-gram feature ids, sort the word positions, convert
the n-gram ids when any are present, rewrite the store, and return the
updated id list alongside. -/
def prune (d : Dict) (idx : List Int) (corpus : List Nat) (rng : Nat → ℚ) :
    Option (Dict × List Int) :=
  match (if (pruneNgrams d idx).isEmpty then some (d, pruneSel d idx)
    else
      match convertNgrams d (pruneNgrams d idx) corpus rng with
      | none => none
      | some p2 => some (p2.1, pruneSel d idx ++ p2.2)) with
  | none => none
  | some p =>
    match pruneCore p.1 (pruneSel d idx) with
    | none => none
    | some d3 => some (d3, p.2)

/-- Number of selected ids strictly below position `i` — the value of the
match cursor `j` of the prune loop while scanning the word region. -/
def countLt (sel : List Int) (i : Nat) : Nat :=
  (sel.filter fun v => v < (i : Int)).length

/-- The ordering the spec claims of a finalized store: no label entry before
a word entry, and counts descending within a type group. -/
def StoreOrdered (ws : List entry) : Prop :=
  ws.Pairwise fun e1 e2 =>
    ¬ (e1.type = entry_type.label ∧ e2.type = entry_type.word) ∧
    (e1.type = e2.type → e2.count ≤ e1.count)

instance (ws : List entry) : Decidable (StoreOrdered ws) := by
  unfold StoreOrdered
  infer_instance

/-- The spec lifecycle precondition on a store that `prune` operates on: a
finalized dictionary has `size` entries, `size = nwords + nlabels`, and its
word-type entries are exactly the positions below `nwords`. -/
def Finalized (d : Dict) : Prop :=
  d.words.length = d.size ∧ d.size = d.nwords + d.nlabels ∧
  ∀ p ∈ d.words.enum, (p.2.type = entry_type.word ↔ p.1 < d.nwords)

instance (d : Dict) : Decidable (Finalized d) := by
  unfold Finalized
  infer_instance



/-- The word text stored at position `p` (empty when out of range). -/
def wordAtPos (d : Dict) (p : Nat) : List Nat :=
  ((d.words.get? p).map entry.word).getD []

/-- Every slot on the cyclic probe path from an entry's home slot
`hash(word) % capacity` to the slot actually holding it is occupied — the
linear-probing reachability invariant. -/
def ProbePathClear (d : Dict) : Prop :=
  ∀ hslot, hslot < MAX_VOCAB_SIZE → ∀ p, p < d.words.length →
    d.word2int hslot = (p : Int) →
    ∀ k, k < (hslot + MAX_VOCAB_SIZE -
        hash (wordAtPos d p) % MAX_VOCAB_SIZE) % MAX_VOCAB_SIZE →
      d.word2int ((hash (wordAtPos d p) % MAX_VOCAB_SIZE + k) %
        MAX_VOCAB_SIZE) ≠ -1

/-- Consistency of the open-addressing index with the store: every slot is
empty or holds a valid position, distinct slots hold distinct positions,
every position is held by some slot, probe paths are unbroken, and the stored
word texts are pairwise distinct. -/
def ConsistentIndex (d : Dict) : Prop :=
  (∀ h, h < MAX_VOCAB_SIZE → d.word2int h = -1 ∨
    (0 ≤ d.word2int h ∧ (d.word2int h).toNat < d.words.length)) ∧
  (∀ h1, h1 < MAX_VOCAB_SIZE → ∀ h2, h2 < MAX_VOCAB_SIZE →
    d.word2int h1 ≠ -1 → d.word2int h1 = d.word2int h2 → h1 = h2) ∧
  (∀ p, p < d.words.length → ∃ h, h < MAX_VOCAB_SIZE ∧
    d.word2int h = (p : Int)) ∧
  ProbePathClear d ∧
  (d.words.map entry.word).Nodup

/-- The arguments of the C4 scenario; `add` and `threshold` read only the
label marker (here `"__label__"`). -/
def c4args : Args :=
  { label := [95, 95, 108, 97, 98, 101, 108, 95, 95], model := model_name.sup,
    minn := 3, maxn := 6, bucket := 2000000, wordNgrams := 1 }

/-- A freshly constructed dictionary (dictionary.cc:25-27): empty store,
cleared table, zero counters.  `pdiscard_` is uninitialized at this point and
passed in abstractly. -/
def emptyDict (args : Args) (pd : Nat → ℚ) : Dict :=
  { args := args, word2int := fun _ => -1, words := [], size := 0, nwords := 0,
    nlabels := 0, ntokens := 0, quant := false, quantidx := [], pdiscard := pd }

/-- The C4 scenario: ingest `"a" "a" "b" "</s>"` by `add`, then apply the
final `threshold` with `minCount = 1`, `minCountLabel = 1`. -/
def c4chain : Option Dict := do
  let d ← add (emptyDict c4args fun _ => 0) [97]
  let d ← add d [97]
  let d ← add d [98]
  let d ← add d EOS
  threshold d 1 1

/-- The arguments of the C1 scenario: a fully-supervised model with
`wordNgrams = 2` and a 10-slot feature bucket. -/
def c1args : Args :=
  { label := [95, 95, 108, 97, 98, 101, 108, 95, 95], model := model_name.sup,
    minn := 3, maxn := 6, bucket := 10, wordNgrams := 2 }

/-- A finalized two-word `sup` dictionary (entries `"a"` and the end-marker),
with the table slots at `hash(w) % MAX_VOCAB_SIZE` (16002220 for `"a"`,
17362777 for `"</s>"`) holding the entry positions. -/
def c1dict : Dict :=
  { args := c1args,
    word2int := fun h =>
      if h = 16002220 then 0 else if h = 17362777 then 1 else -1,
    words := [⟨[97], 1, entry_type.word, []⟩, ⟨EOS, 1, entry_type.word, []⟩],
    size := 2, nwords := 2, nlabels := 0, ntokens := 2, quant := false,
    quantidx := [], pdiscard := fun _ => 1 }

/-- The C1 corpus: the line `"a a\n"`. -/
def c1corpus : List Nat := [97, 32, 97, 10]

/-- The base conversion of that line under `c1dict`: word ids `[0, 0, 1]`,
raw token hashes (as `int32_t`), no labels, three in-vocabulary tokens. -/
def c1base : LineIds :=
  { words := [0, 0, 1],
    word_hashes := [-468965076, -468965076, -677604519],
    labels := [], ntokens := 3, rngIdx := 3 }

/-- A non-`sup` variant of `c1dict` (cbow model, zero thresholds) so that
subsampling can actually discard. -/
def c10dict : Dict :=
  { c1dict with
    args := { c1args with model := model_name.cbow },
    pdiscard := fun _ => 0 }

/-- A single UTF-8 codepoint as a byte group: nonempty, a non-continuation
lead byte followed by continuation bytes only. -/
def ValidCp : List Nat → Prop
  | [] => False
  | b :: t => contByte b = false ∧ ∀ x ∈ t, contByte x = true

instance : DecidablePred ValidCp := fun cp => by
  cases cp <;> unfold ValidCp <;> infer_instance

/-- `ngramLoop` at codepoint granularity: one codepoint consumed per step
(the inner `while` of dictionary.cc:156-158 groups the continuation bytes
with their lead byte). -/
def cpLoop (args : Args) (nw : Nat) (atStart : Bool) :
    List (List Nat) → Nat → List Nat → List Nat
  | [], _, _ => []
  | cp :: rest, n, ngram =>
    if args.maxn < n then []
    else
      (if args.minn ≤ n ∧ ¬(n = 1 ∧ (atStart ∨ rest = [])) then
        [nw + hash (ngram ++ cp) % args.bucket]
      else []) ++ cpLoop args nw atStart rest (n + 1) (ngram ++ cp)

/-- `computeNgramsAux` at codepoint granularity: the outer loop of
dictionary.cc:151-164 starts one inner scan per lead byte. -/
def cpAux (args : Args) (nw : Nat) : List (List Nat) → Bool → List Nat
  | [], _ => []
  | cp :: rest, atStart =>
    cpLoop args nw atStart (cp :: rest) 1 [] ++ cpAux args nw rest false

/-- Modelled from the spec's words: for each start position `i` and each
codepoint length `n` in `[minn, maxn]` that fits in the word, except a
length-1 substring sitting exactly at the start or end boundary, emit the
feature id `nwords + hash(substring) % bucket`, in scan order. -/
def ngramSpec (args : Args) (nw : Nat) (cps : List (List Nat)) : List Nat :=
  (List.range cps.length).flatMap fun i =>
    ((List.range' 1 (min args.maxn (cps.length - i))).filter fun n =>
      decide (args.minn ≤ n ∧ ¬(n = 1 ∧ (i = 0 ∨ i + n = cps.length)))).map
      fun n => nw + hash ((cps.drop i).take n).flatten % args.bucket

/-- The boundary-marked word `"<hello>"` of the C5 scenario. -/
def helloWord : List Nat := BOW ++ [104, 101, 108, 108, 111] ++ EOW

/-! ## Theorems -/

theorem readWordAux_found_word (s : List Nat) :
    ∀ acc, (readWordAux s acc).found = true → (readWordAux s acc).word ≠ [] := by
  induction s with
  | nil =>
    intro acc h
    simp only [readWordAux] at h ⊢
    intro hw
    rw [List.reverse_eq_nil_iff] at hw
    simp [hw] at h
  | cons b rest ih =>
    intro acc h
    unfold readWordAux at h ⊢
    by_cases h255 : b = 255
    · simp only [if_pos h255] at h ⊢
      cases rest with
      | nil =>
        simp only at h ⊢
        intro hw
        rw [List.reverse_eq_nil_iff] at hw
        simp [hw] at h
      | cons c r =>
        simp only at h ⊢
        intro hw
        rw [List.reverse_eq_nil_iff] at hw
        simp [hw] at h
    · simp only [if_neg h255] at h ⊢
      by_cases hd : isDelim b = true
      · simp only [if_pos hd] at h ⊢
        by_cases he : acc.isEmpty = true
        · simp only [if_pos he] at h ⊢
          by_cases h10 : b = 10
          · simp only [if_pos h10] at h ⊢; decide
          · simp only [if_neg h10] at h ⊢
            exact ih acc h
        · simp only [if_neg he] at h ⊢
          by_cases h10 : b = 10
          · simp only [if_pos h10] at h ⊢
            intro hw
            rw [List.reverse_eq_nil_iff] at hw
            simp [hw] at he
          · simp only [if_neg h10] at h ⊢
            intro hw
            rw [List.reverse_eq_nil_iff] at hw
            simp [hw] at he
      · simp only [if_neg hd] at h ⊢
        exact ih (b :: acc) h

theorem readWordAux_skip_delims (ds : List Nat) :
    ∀ rest, (∀ d ∈ ds, isDelim d = true ∧ d ≠ 10) →
      readWordAux (ds ++ 10 :: rest) [] = ⟨true, EOS, rest, false⟩ := by
  induction ds with
  | nil => intro rest _; simp [readWordAux, isDelim, EOS]
  | cons d ds ih =>
    intro rest hds
    obtain ⟨hd, h10⟩ := hds d (List.mem_cons_self d ds)
    have h255 : d ≠ 255 := by
      intro hh; rw [hh] at hd; simp [isDelim] at hd
    rw [List.cons_append]
    unfold readWordAux
    simp only [if_neg h255, if_pos hd, List.isEmpty_nil, if_pos rfl, if_neg h10]
    exact ih rest fun x hx => hds x (List.mem_cons_of_mem d hx)

theorem readWordAux_token_newline (w : List Nat) :
    ∀ acc rest, (∀ b ∈ w, isDelim b = false ∧ b ≠ 255) →
      (acc ≠ [] ∨ w ≠ []) →
      readWordAux (w ++ 10 :: rest) acc =
        ⟨true, acc.reverse ++ w, 10 :: rest, false⟩ := by
  induction w with
  | nil =>
    intro acc rest _ hne
    have hacc : acc ≠ [] := by
      rcases hne with h | h
      · exact h
      · exact absurd rfl h
    simp only [List.nil_append]
    unfold readWordAux
    have : ¬ ((10 : Nat) = 255) := by decide
    simp only [if_neg this]
    have hd : isDelim 10 = true := by decide
    simp only [if_pos hd]
    have he : ¬ (acc.isEmpty = true) := by simp [List.isEmpty_iff, hacc]
    simp only [if_neg he]
    simp
  | cons b w ih =>
    intro acc rest hw _
    obtain ⟨hbd, hb255⟩ := hw b (List.mem_cons_self b w)
    rw [List.cons_append]
    unfold readWordAux
    simp only [if_neg hb255, if_neg (by simp [hbd] : ¬ (isDelim b = true))]
    rw [ih (b :: acc) rest (fun x hx => hw x (List.mem_cons_of_mem b hx))
      (Or.inl (by simp))]
    simp

theorem readWordAux_token_eof (w : List Nat) :
    ∀ acc, (∀ b ∈ w, isDelim b = false ∧ b ≠ 255) → (acc ≠ [] ∨ w ≠ []) →
      readWordAux w acc = ⟨true, acc.reverse ++ w, [], true⟩ := by
  induction w with
  | nil =>
    intro acc _ hne
    have hacc : acc ≠ [] := by
      rcases hne with h | h
      · exact h
      · exact absurd rfl h
    unfold readWordAux
    simp [List.isEmpty_iff, hacc]
  | cons b w ih =>
    intro acc hw _
    obtain ⟨hbd, hb255⟩ := hw b (List.mem_cons_self b w)
    unfold readWordAux
    simp only [if_neg hb255, if_neg (by simp [hbd] : ¬ (isDelim b = true))]
    rw [ih (b :: acc) (fun x hx => hw x (List.mem_cons_of_mem b hx))
      (Or.inl (by simp))]
    simp

/-- C6: `readWord` never returns an empty token; with no pending token a
newline yields the end-marker `EOS` and reports a token; a newline after a
non-empty pending token is pushed back and the token returned; at end of
stream a non-empty pending token is still returned once, and end of stream
with no pending token reports no-token. -/
theorem C6_readWord_protocol :
    (∀ s, (readWord s).found = true → (readWord s).word ≠ []) ∧
    (∀ ds rest, (∀ d ∈ ds, isDelim d = true ∧ d ≠ 10) →
      readWord (ds ++ 10 :: rest) = ⟨true, EOS, rest, false⟩) ∧
    (∀ w rest, (∀ b ∈ w, isDelim b = false ∧ b ≠ 255) → w ≠ [] →
      readWord (w ++ 10 :: rest) = ⟨true, w, 10 :: rest, false⟩) ∧
    (∀ w, (∀ b ∈ w, isDelim b = false ∧ b ≠ 255) → w ≠ [] →
      readWord w = ⟨true, w, [], true⟩) ∧
    readWord [] = ⟨false, [], [], true⟩ := by
  refine ⟨fun s => readWordAux_found_word s [], readWordAux_skip_delims,
    fun w rest hw hne => ?_, fun w hw hne => ?_, by decide⟩
  · simpa using readWordAux_token_newline w [] rest hw (Or.inr hne)
  · simpa using readWordAux_token_eof w [] hw (Or.inr hne)

/-- Witness for C6 at concrete streams: delimiters then a newline yield the
end-marker; a token before a newline is returned with the newline pushed
back; a ragged final token is returned at end of stream. -/
theorem C6_readWord_protocol_witness :
    readWord [32, 9, 10, 97] = ⟨true, EOS, [97], false⟩ ∧
    readWord [97, 98, 10, 99] = ⟨true, [97, 98], [10, 99], false⟩ ∧
    readWord [97, 98] = ⟨true, [97, 98], [], true⟩ :=
  ⟨C6_readWord_protocol.2.1 [32, 9] [97] (by decide),
   C6_readWord_protocol.2.2.1 [97, 98] [99] (by decide) (by decide),
   C6_readWord_protocol.2.2.2.1 [97, 98] (by decide) (by decide)⟩

/-- C7, counterexample: on the single byte 0xFF, `Dictionary::hash` differs
from the plain FNV-1a fold over byte values, because the source converts the
byte through (signed) `char`, sign-extending it. -/
theorem C7_hash_plain_fnv_counterexample : hash [255] ≠ fnv1a32 [255] := by
  decide

/-- C7, amended: `hash(s)` is the 32-bit FNV-1a fold over the bytes of `s`
with each byte first converted through signed `char` to `uint32_t`
(bytes < 0x80 unchanged, bytes ≥ 0x80 sign-extended to `2^32 - 256 + b`);
on byte strings with all bytes < 0x80 it coincides with the plain FNV-1a
fold. -/
theorem C7_hash_signext (s : List Nat) :
    hash s = fnv1a32 (s.map u32ofChar) ∧
    ((∀ b ∈ s, b < 128) → hash s = fnv1a32 s) := by
  constructor
  · unfold hash fnv1a32
    rw [List.foldl_map]
  · intro h
    unfold hash fnv1a32
    apply List.foldl_ext
    intro acc b hb
    have hb' := h b hb
    simp [u32ofChar, hb']

/-- Witness for C7 at concrete byte strings (one with a high byte, one
all-ASCII). -/
theorem C7_hash_signext_witness :
    hash [200, 10] = fnv1a32 ([200, 10].map u32ofChar) ∧
    hash [104, 105] = fnv1a32 [104, 105] :=
  ⟨(C7_hash_signext [200, 10]).1, (C7_hash_signext [104, 105]).2 (by decide)⟩

/-- C4: the scenario yields a store containing `a` with count 2, `b` with
count 1, and the end-marker as an ordinary word entry with count 1; the
total token count is 4, `nwords = 3`, `nlabels = 0`. -/
theorem C4_ingest_scenario :
    ∃ d : Dict, c4chain = some d ∧
      (⟨[97], 2, entry_type.word, []⟩ : entry) ∈ d.words ∧
      (⟨[98], 1, entry_type.word, []⟩ : entry) ∈ d.words ∧
      (⟨EOS, 1, entry_type.word, []⟩ : entry) ∈ d.words ∧
      d.ntokens = 4 ∧ d.nwords = 3 ∧ d.nlabels = 0 := by
  have h1 : c4chain.map (fun d => (d.words, d.ntokens, d.nwords, d.nlabels)) =
      some ([⟨[97], 2, entry_type.word, []⟩, ⟨[98], 1, entry_type.word, []⟩,
             ⟨EOS, 1, entry_type.word, []⟩], 4, 3, 0) := by decide
  cases hc : c4chain with
  | none => rw [hc] at h1; exact absurd h1 (by simp)
  | some d =>
    rw [hc] at h1
    simp only [Option.map_some'] at h1
    have h2 := Option.some.inj h1
    obtain ⟨hw, ht, hn, hl⟩ :
        d.words = [⟨[97], 2, entry_type.word, []⟩,
          ⟨[98], 1, entry_type.word, []⟩, ⟨EOS, 1, entry_type.word, []⟩] ∧
        d.ntokens = 4 ∧ d.nwords = 3 ∧ d.nlabels = 0 := by
      simpa [Prod.ext_iff] using h2
    exact ⟨d, rfl, by rw [hw]; decide, by rw [hw]; decide, by rw [hw]; decide,
      ht, hn, hl⟩

/-- `addNgrams` appends the combined-feature ids after the given line. -/
theorem addNgrams_append (d : Dict) (l h : List Int) (n : Nat) :
    addNgrams d l h n = l ++ addNgrams d [] h n := by
  simp [addNgrams]

/-- C1, amended: for a `sup` dictionary the id-converting `getLine` appends
combined word n-gram feature ids to the word-id sequence after base
conversion; they are computed (and gated) from the accumulated raw-hash list
when a `QuantizationMap` is active, and from the word-id sequence itself when
it is not. -/
theorem C1_sup_wordNgrams (d : Dict) (corpus : List Nat) (s : Stream)
    (rng : Nat → ℚ) (li : LineIds) (s2 : Stream)
    (hsup : d.args.model = model_name.sup)
    (hbase : getLineIds d corpus s rng = some (li, s2)) :
    getLineSup d corpus s rng = some
      (li.words ++
        (if d.quant then addNgrams d [] li.word_hashes d.args.wordNgrams
         else addNgrams d [] li.words d.args.wordNgrams),
       li.labels, li.ntokens, s2) := by
  unfold getLineSup
  rw [hbase]
  by_cases hq : d.quant
  · simp [hsup, hq, addNgrams_append d li.words]
  · simp [hsup, hq]

/-- C1, counterexample: with no `QuantizationMap` active, the appended
combined features are not the ones computed from the accumulated raw-hash
list — on the line `"a a\n"` under `c1dict` the source appends `[2, 3]`
(folds of the word ids) where the hash list would give `[6, 3]`. -/
theorem C1_hashlist_counterexample :
    ¬ (getLineSup c1dict c1corpus ⟨c1corpus, false⟩ (fun _ => 0) =
       (getLineIds c1dict c1corpus ⟨c1corpus, false⟩ (fun _ => 0)).map fun p =>
         (p.1.words ++ addNgrams c1dict [] p.1.word_hashes c1args.wordNgrams,
          p.1.labels, p.1.ntokens, p.2)) := by
  decide

/-- Witness for C1 at the concrete scenario `c1dict` / `"a a\n"`. -/
theorem C1_sup_wordNgrams_witness :
    getLineSup c1dict c1corpus ⟨c1corpus, false⟩ (fun _ => 0) = some
      (c1base.words ++
        (if c1dict.quant then
          addNgrams c1dict [] c1base.word_hashes c1dict.args.wordNgrams
         else addNgrams c1dict [] c1base.words c1dict.args.wordNgrams),
       c1base.labels, c1base.ntokens, ⟨[], false⟩) :=
  C1_sup_wordNgrams c1dict c1corpus ⟨c1corpus, false⟩ (fun _ => 0) c1base
    ⟨[], false⟩ (by decide) (by decide)



theorem countLt_succ (sel : List Int) (hnd : sel.Nodup) (i : Nat) :
    countLt sel (i + 1) =
      countLt sel i + (if (i : Int) ∈ sel then 1 else 0) := by
  induction sel with
  | nil => simp [countLt]
  | cons a rest ih =>
    rw [List.nodup_cons] at hnd
    have ih2 := ih hnd.2
    unfold countLt at ih2 ⊢
    rcases lt_trichotomy a (i : Int) with hlt | heq | hgt
    · have h1 : a < ((i + 1 : Nat) : Int) := by push_cast; omega
      have hne : ¬ ((i : Int) = a) := by omega
      simp only [List.filter_cons, decide_eq_true_eq, if_pos hlt, if_pos h1,
        List.length_cons, List.mem_cons, hne, false_or]
      rw [ih2]
      omega
    · have h1 : a < ((i + 1 : Nat) : Int) := by push_cast; omega
      have h2 : ¬ (a < (i : Int)) := by omega
      have hmem : (i : Int) ∈ a :: rest := by
        rw [← heq]; exact List.mem_cons_self a rest
      have hnotrest : ¬ ((i : Int) ∈ rest) := by
        rw [← heq]; exact hnd.1
      simp only [List.filter_cons, decide_eq_true_eq, if_pos h1, if_neg h2,
        List.length_cons, if_pos hmem]
      rw [ih2, if_neg hnotrest]
    · have h1 : ¬ (a < ((i + 1 : Nat) : Int)) := by push_cast; omega
      have h2 : ¬ (a < (i : Int)) := by omega
      have hne : ¬ ((i : Int) = a) := by omega
      simp only [List.filter_cons, decide_eq_true_eq, if_neg h1, if_neg h2,
        List.mem_cons, hne, false_or]
      exact ih2

theorem countLt_get (sel : List Int) (hs : sel.Pairwise (· < ·)) (i : Nat)
    (hm : (i : Int) ∈ sel) : sel.get? (countLt sel i) = some (i : Int) := by
  induction sel with
  | nil => simp at hm
  | cons a rest ih =>
    rw [List.pairwise_cons] at hs
    by_cases hlt : a < (i : Int)
    · have hne : ¬ ((i : Int) = a) := by omega
      have hm2 : (i : Int) ∈ rest := by
        rcases List.mem_cons.mp hm with h | h
        · exact absurd h hne
        · exact h
      unfold countLt
      simp only [List.filter_cons, decide_eq_true_eq, if_pos hlt,
        List.length_cons]
      rw [List.get?_cons_succ]
      exact ih hs.2 hm2
    · have heq : (i : Int) = a := by
        rcases List.mem_cons.mp hm with h | h
        · exact h
        · exact absurd (hs.1 _ h) (by omega)
      have hrest : (rest.filter fun v => v < (i : Int)) = [] := by
        rw [List.filter_eq_nil_iff]
        intro v hv
        have := hs.1 v hv
        simp only [decide_eq_true_eq]
        omega
      unfold countLt
      simp only [List.filter_cons, decide_eq_true_eq, if_neg hlt, hrest,
        List.length_nil, List.get?_cons_zero]
      rw [heq]

theorem countLt_all (sel : List Int) (i : Nat)
    (h : ∀ v ∈ sel, v < (i : Int)) : countLt sel i = sel.length := by
  unfold countLt
  rw [List.filter_eq_self.mpr]
  intro v hv
  simp only [decide_eq_true_eq]
  exact h v hv

theorem strictSorted_length_le (l : List Int) (k : Nat)
    (hs : l.Pairwise (· < ·)) (hr : ∀ v ∈ l, 0 ≤ v ∧ v < (k : Int)) :
    l.length ≤ k := by
  have hnat : (l.map Int.toNat).Pairwise (· < ·) := by
    rw [List.pairwise_map]
    refine hs.imp_of_mem ?_
    intro a b ha hb hab
    have h1 := hr a ha
    have h2 := hr b hb
    omega
  have hnd : (l.map Int.toNat).Nodup :=
    hnat.imp fun h => Nat.ne_of_lt h
  have hsub : (l.map Int.toNat).toFinset ⊆ Finset.range k := by
    intro x hx
    rw [List.mem_toFinset] at hx
    rw [Finset.mem_range]
    obtain ⟨v, hv, hvx⟩ := List.mem_map.mp hx
    have := hr v hv
    omega
  have hcard := Finset.card_le_card hsub
  rw [List.toFinset_card_of_nodup hnd, Finset.card_range] at hcard
  simpa using hcard

theorem countLt_le (sel : List Int) (i : Nat) (hs : sel.Pairwise (· < ·))
    (hr : ∀ v ∈ sel, 0 ≤ v) : countLt sel i ≤ i := by
  apply strictSorted_length_le
  · exact hs.sublist (List.filter_sublist sel)
  · intro v hv
    have hm := List.mem_of_mem_filter hv
    have hlt := List.of_mem_filter hv
    simp only [decide_eq_true_eq] at hlt
    exact ⟨hr v hm, hlt⟩

theorem set_append_length {α : Type} (l1 l2 : List α) (e : α) :
    (l1 ++ l2).set l1.length e = l1 ++ l2.set 0 e := by
  induction l1 with
  | nil => simp
  | cons a t ih => simp [List.set_cons_succ, ih]



theorem entryLe_implies (e1 e2 : entry) (h : entryLe e1 e2) :
    ¬ (e1.type = entry_type.label ∧ e2.type = entry_type.word) ∧
    (e1.type = e2.type → e2.count ≤ e1.count) := by
  unfold entryLe at h
  constructor
  · rintro ⟨h1, h2⟩
    rw [h1, h2] at h
    simp [entry_type.tag] at h
  · intro hty
    rw [hty] at h
    omega

theorem storeOrdered_of_sorted (ws : List entry) (h : ws.Sorted entryLe) :
    StoreOrdered ws :=
  List.Pairwise.imp (fun hab => entryLe_implies _ _ hab) h

theorem rebuild_counts_aux (l : List entry) (ws : List entry) :
    ∀ st0 st, l.foldlM (rebuildStep ws) st0 = some st →
      st.size = st0.size + l.length ∧
      st.nwords + st.nlabels = st0.nwords + st0.nlabels + l.length := by
  induction l with
  | nil =>
    intro st0 st h
    simp [List.foldlM_nil] at h
    subst h
    simp
  | cons e rest ih =>
    intro st0 st h
    rw [List.foldlM_cons] at h
    cases h1 : rebuildStep ws st0 e with
    | none => rw [h1] at h; simp at h
    | some st1 =>
      rw [h1] at h
      have h2 := ih st1 st h
      unfold rebuildStep at h1
      cases hp : probe st0.tbl ws e.word (hash e.word % MAX_VOCAB_SIZE)
        MAX_VOCAB_SIZE with
      | none => rw [hp] at h1; simp at h1
      | some hh =>
        rw [hp] at h1
        simp only [Option.map_some'] at h1
        have h1' := Option.some.inj h1
        subst h1'
        obtain ⟨ha, hb⟩ := h2
        constructor
        · rw [ha]; simp only [List.length_cons]; omega
        · rw [hb]
          simp only [List.length_cons]
          cases e.type <;> simp <;> omega

theorem threshold_eq (d : Dict) (t tl : Int) (d2 : Dict)
    (h : threshold d t tl = some d2) :
    ∃ st, rebuild ((d.words.insertionSort entryLe).filter
        (fun e => !thresholdDiscards t tl e)) = some st ∧
      d2.words = (d.words.insertionSort entryLe).filter
        (fun e => !thresholdDiscards t tl e) ∧
      d2.size = st.size ∧ d2.nwords = st.nwords ∧ d2.nlabels = st.nlabels := by
  unfold threshold at h
  rw [Option.map_eq_some'] at h
  obtain ⟨st, h1, h2⟩ := h
  exact ⟨st, h1, by rw [← h2], by rw [← h2], by rw [← h2], by rw [← h2]⟩



theorem pruneStep_eq (sel : List Int) (st : PruneState) (i : Nat) (e : entry)
    (hget : st.arr.get? i = some e) :
    pruneStep sel st i =
      if e.type = entry_type.label ∨
          (st.j < sel.length ∧ sel.get? st.j = some (i : Int)) then
        (match probe st.tbl (st.arr.set st.j e) e.word
            (hash e.word % MAX_VOCAB_SIZE) MAX_VOCAB_SIZE with
         | none => none
         | some h =>
           some { arr := st.arr.set st.j e,
                  tbl := fun h2 => if h2 = h then (st.j : Int) else st.tbl h2,
                  j := st.j + 1 })
      else some st := by
  unfold pruneStep
  rw [hget]

theorem pruneLoop_invariant (ws : List entry) (nw nl : Nat) (sel : List Int)
    (hlen : ws.length = nw + nl)
    (htype : ∀ i e, ws.get? i = some e → (e.type = entry_type.word ↔ i < nw))
    (hs : sel.Pairwise (· < ·))
    (hrange : ∀ v ∈ sel, 0 ≤ v ∧ v < (nw : Int)) :
    ∀ (k i : Nat) (st st' : PruneState),
      i + k = ws.length →
      st.j = countLt sel i + (i - min i nw) →
      (∃ kept : List entry, kept.length = st.j ∧ kept.Sublist (ws.take i) ∧
        st.arr = kept ++ ws.drop st.j) →
      (List.range' i k).foldlM (pruneStep sel) st = some st' →
      st'.j = sel.length + nl ∧
      ∃ kept : List entry, kept.length = st'.j ∧ kept.Sublist ws ∧
        st'.arr = kept ++ ws.drop st'.j := by
  have hnd : sel.Nodup := hs.imp fun h => ne_of_lt h
  have hr0 : ∀ v ∈ sel, 0 ≤ v := fun v hv => (hrange v hv).1
  have hselnw : sel.length ≤ nw :=
    strictSorted_length_le sel nw hs hrange
  intro k
  induction k with
  | zero =>
    intro i st st' hik hj hkept hfold
    simp only [List.range', List.foldlM_nil, Option.pure_def,
      Option.some.injEq] at hfold
    subst hfold
    have hiN : i = ws.length := by omega
    have hcl : countLt sel i = sel.length := by
      apply countLt_all
      intro v hv
      have := hrange v hv
      omega
    have hjval : st.j = sel.length + nl := by
      rw [hj, hcl]
      omega
    refine ⟨hjval, ?_⟩
    obtain ⟨kept, h1, h2, h3⟩ := hkept
    refine ⟨kept, h1, ?_, h3⟩
    rw [hiN, List.take_length] at h2
    exact h2
  | succ k ih =>
    intro i st st' hik hj hkept hfold
    have hiN : i < ws.length := by omega
    obtain ⟨kept, hkl, hksub, harr⟩ := hkept
    have hclle : countLt sel i ≤ i := countLt_le sel i hs hr0
    have hcll : countLt sel i ≤ sel.length := List.length_filter_le _ _
    have hji : st.j ≤ i := by
      rcases Nat.le_total i nw with h | h
      · rw [hj]; omega
      · rw [hj]; omega
    have hjN : st.j < ws.length := by omega
    set e := ws.get ⟨i, hiN⟩ with he
    have hge : ws.get? i = some e := List.get?_eq_get hiN
    have hgetarr : st.arr.get? i = some e := by
      rw [harr, List.get?_append_right (by omega : kept.length ≤ i),
        List.get?_drop, hkl]
      rw [show st.j + (i - st.j) = i by omega]
      exact hge
    have hr' : List.range' i (k + 1) = i :: List.range' (i + 1) k := rfl
    rw [hr', List.foldlM_cons] at hfold
    cases hps : pruneStep sel st i with
    | none => rw [hps] at hfold; simp at hfold
    | some st1 =>
      rw [hps] at hfold
      rw [pruneStep_eq sel st i e hgetarr] at hps
      have htypei := htype i e hge
      -- facts for the keep branch
      have hwsj : ws.drop st.j = ws.get ⟨st.j, hjN⟩ :: ws.drop (st.j + 1) :=
        List.drop_eq_get_cons hjN
      have hset0 : (ws.drop st.j).set 0 e = e :: ws.drop (st.j + 1) := by
        rw [hwsj]
        rfl
      have hkeepArr : (st.arr.set st.j e) =
          (kept ++ [e]) ++ ws.drop (st.j + 1) := by
        rw [harr, ← hkl, set_append_length, hkl, hset0]
        simp
      have hkeepSub : (kept ++ [e]).Sublist (ws.take (i + 1)) := by
        have hge2 : ws[i]? = some e := by
          rw [← List.get?_eq_getElem?]
          exact hge
        have ht : ws.take (i + 1) = ws.take i ++ [e] := by
          rw [List.take_succ, hge2]
          rfl
        rw [ht]
        exact List.Sublist.append hksub (List.Sublist.refl [e])
      have htakes : (ws.take i).Sublist (ws.take (i + 1)) := by
        have h1 := List.take_sublist i (ws.take (i + 1))
        rw [List.take_take, min_eq_left (by omega : i ≤ i + 1)] at h1
        exact h1
      by_cases hcnw : i < nw
      · -- word region: the entry is word-typed, the cursor is countLt
        have hword : e.type = entry_type.word := htypei.mpr hcnw
        have hnotlab : ¬ (e.type = entry_type.label) := by
          rw [hword]; decide
        have hminl : min i nw = i := Nat.min_eq_left (Nat.le_of_lt hcnw)
        have hjci : st.j = countLt sel i := by rw [hj, hminl]; omega
        by_cases hmem : (i : Int) ∈ sel
        · -- selected word position: kept
          have hget := countLt_get sel hs i hmem
          have hltlen : countLt sel i < sel.length := by
            rcases List.get?_eq_some.mp hget with ⟨h, _⟩
            exact h
          have hc : e.type = entry_type.label ∨
              (st.j < sel.length ∧ sel.get? st.j = some (i : Int)) := by
            right
            rw [hjci]
            exact ⟨hltlen, hget⟩
          rw [if_pos hc] at hps
          cases hp : probe st.tbl (st.arr.set st.j e) e.word
            (hash e.word % MAX_VOCAB_SIZE) MAX_VOCAB_SIZE with
          | none => rw [hp] at hps; simp at hps
          | some hh =>
            rw [hp] at hps
            have hst1 : st1 =
                ⟨st.arr.set st.j e,
                 fun h2 => if h2 = hh then (st.j : Int) else st.tbl h2,
                 st.j + 1⟩ := (Option.some.inj hps).symm
            subst hst1
            have hsucc : countLt sel (i + 1) = countLt sel i + 1 := by
              rw [countLt_succ sel hnd i, if_pos hmem]
            have hjinv : st.j + 1 =
                countLt sel (i + 1) + ((i + 1) - min (i + 1) nw) := by
              rw [hsucc, min_eq_left (by omega : i + 1 ≤ nw)]
              omega
            exact ih (i + 1) _ st' (by omega) hjinv
              ⟨kept ++ [e], by simp [hkl], hkeepSub, hkeepArr⟩ hfold
        · -- unselected word position: skipped
          have hc : ¬ (e.type = entry_type.label ∨
              (st.j < sel.length ∧ sel.get? st.j = some (i : Int))) := by
            rintro (hx | ⟨hl, hgx⟩)
            · exact hnotlab hx
            · exact hmem (List.get?_mem hgx)
          rw [if_neg hc] at hps
          have hst1 : st1 = st := (Option.some.inj hps).symm
          rw [hst1] at hfold
          have hsucc : countLt sel (i + 1) = countLt sel i := by
            rw [countLt_succ sel hnd i, if_neg hmem]
            omega
          have hjinv : st.j =
              countLt sel (i + 1) + ((i + 1) - min (i + 1) nw) := by
            rw [hsucc, min_eq_left (by omega : i + 1 ≤ nw)]
            omega
          exact ih (i + 1) st st' (by omega) hjinv
            ⟨kept, hkl, hksub.trans htakes, harr⟩ hfold
      · -- label region: always kept
        have hlab : e.type = entry_type.label := by
          cases hety : e.type with
          | word => exact absurd (htypei.mp hety) hcnw
          | label => rfl
        have hnotmem : ¬ ((i : Int) ∈ sel) := by
          intro hx
          have := hrange _ hx
          omega
        have hc : e.type = entry_type.label ∨
            (st.j < sel.length ∧ sel.get? st.j = some (i : Int)) :=
          Or.inl hlab
        rw [if_pos hc] at hps
        cases hp : probe st.tbl (st.arr.set st.j e) e.word
          (hash e.word % MAX_VOCAB_SIZE) MAX_VOCAB_SIZE with
        | none => rw [hp] at hps; simp at hps
        | some hh =>
          rw [hp] at hps
          have hst1 : st1 =
              ⟨st.arr.set st.j e,
               fun h2 => if h2 = hh then (st.j : Int) else st.tbl h2,
               st.j + 1⟩ := (Option.some.inj hps).symm
          subst hst1
          have hsucc : countLt sel (i + 1) = countLt sel i := by
            rw [countLt_succ sel hnd i, if_neg hnotmem]
            omega
          have hjinv : st.j + 1 =
              countLt sel (i + 1) + ((i + 1) - min (i + 1) nw) := by
            rw [hsucc, min_eq_right (by omega : nw ≤ i + 1)]
            rw [hj, min_eq_right (by omega : nw ≤ i)]
            omega
          exact ih (i + 1) _ st' (by omega) hjinv
            ⟨kept ++ [e], by simp [hkl], hkeepSub, hkeepArr⟩ hfold


theorem countLt_zero (sel : List Int) (hr : ∀ v ∈ sel, 0 ≤ v) :
    countLt sel 0 = 0 := by
  unfold countLt
  rw [List.filter_eq_nil_iff.mpr]
  · rfl
  · intro v hv
    have := hr v hv
    simp only [decide_eq_true_eq]
    omega

theorem pruneCore_spec (d : Dict) (sel : List Int) (d2 : Dict)
    (hfin : Finalized d) (hord : StoreOrdered d.words)
    (hs : sel.Pairwise (· < ·))
    (hrange : ∀ v ∈ sel, 0 ≤ v ∧ v < (d.nwords : Int))
    (h : pruneCore d sel = some d2) :
    StoreOrdered d2.words ∧ d2.size = d2.nwords + d2.nlabels := by
  obtain ⟨hlen, hsz, htyen⟩ := hfin
  have htype : ∀ i e, d.words.get? i = some e →
      (e.type = entry_type.word ↔ i < d.nwords) := by
    intro i e hget
    exact htyen (i, e) (List.mem_enum_iff_get?.mpr hget)
  unfold pruneCore at h
  rw [Option.map_eq_some'] at h
  obtain ⟨st', hfold, hd2⟩ := h
  rw [List.range_eq_range'] at hfold
  have hinv := pruneLoop_invariant d.words d.nwords d.nlabels sel
    (by omega) htype hs hrange d.words.length 0
    ⟨d.words, fun _ => (-1 : Int), 0⟩ st' (by omega)
    (by
      show 0 = countLt sel 0 + (0 - min 0 d.nwords)
      have := countLt_zero sel (fun v hv => (hrange v hv).1)
      omega)
    ⟨[], rfl, by simp, by simp⟩ hfold
  obtain ⟨hj, kept, hkl, hksub, harr⟩ := hinv
  have hwords : d2.words = kept := by
    rw [← hd2]
    show st'.arr.take (sel.length + d.nlabels) = kept
    rw [harr, ← hj, ← hkl, List.take_left]
  constructor
  · rw [hwords]
    exact List.Pairwise.sublist hksub hord
  · rw [← hd2]

theorem convertNgrams_store (d : Dict) (ngramidx : List Int)
    (corpus : List Nat) (rng : Nat → ℚ) (dd : Dict) (rr : List Int)
    (h : convertNgrams d ngramidx corpus rng = some (dd, rr)) :
    dd.words = d.words ∧ dd.nwords = d.nwords ∧ dd.nlabels = d.nlabels ∧
    dd.size = d.size ∧ dd.args = d.args := by
  unfold convertNgrams at h
  split at h
  · exact absurd h (by simp)
  · split at h
    · exact absurd h (by simp)
    · have h2 := Option.some.inj h
      have hdd : dd = { d with quantidx := _ } := (congrArg Prod.fst h2).symm
      rw [hdd]
      exact ⟨rfl, rfl, rfl, rfl, rfl⟩

theorem prune_spec (d : Dict) (idx : List Int) (corpus : List Nat)
    (rng : Nat → ℚ) (d2 : Dict) (idx2 : List Int)
    (hfin : Finalized d) (hord : StoreOrdered d.words)
    (hnd : idx.Nodup) (hpos : ∀ v ∈ idx, 0 ≤ v)
    (h : prune d idx corpus rng = some (d2, idx2)) :
    StoreOrdered d2.words ∧ d2.size = d2.nwords + d2.nlabels := by
  unfold prune at h
  set wordsSel := pruneSel d idx with hws
  have hperm := List.perm_insertionSort (α := Int) (· ≤ ·)
    (idx.filter fun i => i < (d.nwords : Int))
  have hselnd : wordsSel.Nodup := by
    rw [hws]
    exact hperm.nodup_iff.mpr (hnd.filter _)
  have hsorted : wordsSel.Sorted (· ≤ ·) :=
    List.sorted_insertionSort (· ≤ ·) _
  have hstrict : wordsSel.Pairwise (· < ·) := by
    have hboth := hsorted.and hselnd
    exact hboth.imp fun hab => lt_of_le_of_ne hab.1 hab.2
  have hselrange : ∀ v ∈ wordsSel, 0 ≤ v ∧ v < (d.nwords : Int) := by
    intro v hv
    have hv2 : v ∈ idx.filter fun i => i < (d.nwords : Int) :=
      hperm.mem_iff.mp hv
    have hm := List.mem_of_mem_filter hv2
    have hlt := List.of_mem_filter hv2
    simp only [decide_eq_true_eq] at hlt
    exact ⟨hpos v hm, hlt⟩
  split at h
  · exact absurd h (by simp)
  case _ p hp1 =>
    split at h
    · exact absurd h (by simp)
    case _ d3 hp3 =>
      have h2 := Option.some.inj h
      have hd3 : d3 = d2 := congrArg Prod.fst h2
      rw [← hd3]
      -- identify the store prune operates on
      have hstore : p.1.words = d.words ∧ p.1.nwords = d.nwords ∧
          p.1.nlabels = d.nlabels ∧ p.1.size = d.size := by
        split at hp1
        · have := Option.some.inj hp1
          rw [← this]
          exact ⟨rfl, rfl, rfl, rfl⟩
        · split at hp1
          · exact absurd hp1 (by simp)
          case _ p2 hcv =>
            have hpp := Option.some.inj hp1
            have hp2 := convertNgrams_store d _ corpus rng p2.1 p2.2
              (by rw [hcv])
            rw [← hpp]
            exact ⟨hp2.1, hp2.2.1, hp2.2.2.1, hp2.2.2.2.1⟩
      have hfin2 : Finalized p.1 := by
        obtain ⟨hw, hn, hl, hsz⟩ := hstore
        unfold Finalized at hfin ⊢
        rw [hw, hn, hl, hsz]
        exact hfin
      have hord2 : StoreOrdered p.1.words := by
        rw [hstore.1]
        exact hord
      have hrange2 : ∀ v ∈ wordsSel, 0 ≤ v ∧ v < (p.1.nwords : Int) := by
        rw [hstore.2.1]
        exact hselrange
      exact pruneCore_spec p.1 wordsSel d3 hfin2 hord2 hstrict hrange2 hp3



/-- C3: after every `threshold`, and after every `prune` of a finalized,
ordered store with a duplicate-free set of non-negative selected ids, the
entry sequence is grouped with all word entries before all label entries and
count-descending within each group, and `size = nwords + nlabels` holds. -/
theorem C3_order_invariant :
    (∀ (d : Dict) (t tl : Int) (d2 : Dict), threshold d t tl = some d2 →
      StoreOrdered d2.words ∧ d2.size = d2.nwords + d2.nlabels) ∧
    (∀ (d : Dict) (idx : List Int) (corpus : List Nat) (rng : Nat → ℚ)
      (d2 : Dict) (idx2 : List Int),
      Finalized d → StoreOrdered d.words → idx.Nodup → (∀ v ∈ idx, 0 ≤ v) →
      prune d idx corpus rng = some (d2, idx2) →
      StoreOrdered d2.words ∧ d2.size = d2.nwords + d2.nlabels) := by
  constructor
  · intro d t tl d2 h
    obtain ⟨st, hreb, hwords, hsz, hnw, hnl⟩ := threshold_eq d t tl d2 h
    constructor
    · rw [hwords]
      apply storeOrdered_of_sorted
      exact List.Pairwise.filter _ (List.sorted_insertionSort entryLe d.words)
    · unfold rebuild at hreb
      have hc : st.size =
          (⟨fun _ => -1, 0, 0, 0⟩ : RebuildState).size + _ ∧
          st.nwords + st.nlabels =
          (⟨fun _ => -1, 0, 0, 0⟩ : RebuildState).nwords +
            (⟨fun _ => -1, 0, 0, 0⟩ : RebuildState).nlabels + _ :=
        rebuild_counts_aux _ _ _ _ hreb
      simp only at hc
      rw [hsz, hnw, hnl]
      omega
  · intro d idx corpus rng d2 idx2 hfin hord hnd hpos h
    exact prune_spec d idx corpus rng d2 idx2 hfin hord hnd hpos h

/-- Witness for C3: both parts applied to a concrete dictionary — the final
threshold over `c1dict`, and a prune keeping word 0. -/
theorem C3_order_invariant_witness :
    (∃ d2 : Dict, threshold c1dict 1 1 = some d2 ∧ StoreOrdered d2.words ∧
      d2.size = d2.nwords + d2.nlabels) ∧
    (∃ (d2 : Dict) (idx2 : List Int),
      prune c1dict [0] [] (fun _ => 0) = some (d2, idx2) ∧
      StoreOrdered d2.words ∧ d2.size = d2.nwords + d2.nlabels) := by
  constructor
  · cases ht : threshold c1dict 1 1 with
    | none =>
      have hsome : (threshold c1dict 1 1).isSome = true := by decide
      rw [ht] at hsome
      simp at hsome
    | some d2 =>
      exact ⟨d2, rfl, C3_order_invariant.1 c1dict 1 1 d2 ht⟩
  · cases hp : prune c1dict [0] [] (fun _ => 0) with
    | none =>
      have hsome : (prune c1dict [0] [] fun _ => 0).isSome = true := by decide
      rw [hp] at hsome
      simp at hsome
    | some p =>
      exact ⟨p.1, p.2, rfl,
        C3_order_invariant.2 c1dict [0] [] (fun _ => 0) p.1 p.2 (by decide)
          (by decide) (by decide) (by decide) hp⟩



theorem probe_eq_some_of_least (tbl : Nat → Int) (ws : List entry)
    (w : List Nat) (k : Nat) :
    ∀ (h0 fuel : Nat), h0 < MAX_VOCAB_SIZE → k < fuel →
    probeStop tbl ws w ((h0 + k) % MAX_VOCAB_SIZE) = true →
    (∀ j, j < k → probeStop tbl ws w ((h0 + j) % MAX_VOCAB_SIZE) = false) →
    probe tbl ws w h0 fuel = some ((h0 + k) % MAX_VOCAB_SIZE) := by
  induction k with
  | zero =>
    intro h0 fuel hh0 hkf hstop _
    cases fuel with
    | zero => omega
    | succ f =>
      rw [show h0 + 0 = h0 from rfl, Nat.mod_eq_of_lt hh0] at hstop ⊢
      unfold probe
      rw [hstop]
      simp
  | succ k ih =>
    intro h0 fuel hh0 hkf hstop hleast
    cases fuel with
    | zero => omega
    | succ f =>
      have h0stop : probeStop tbl ws w h0 = false := by
        have := hleast 0 (by omega)
        rwa [Nat.add_zero, Nat.mod_eq_of_lt hh0] at this
      unfold probe
      rw [h0stop]
      simp only [Bool.false_eq_true, if_false]
      have hmod : ∀ j : Nat, ((h0 + 1) % MAX_VOCAB_SIZE + j) % MAX_VOCAB_SIZE =
          (h0 + (j + 1)) % MAX_VOCAB_SIZE := by
        intro j
        rw [Nat.mod_add_mod]
        congr 1
        omega
      have := ih ((h0 + 1) % MAX_VOCAB_SIZE) f
        (Nat.mod_lt _ (by unfold MAX_VOCAB_SIZE; omega)) (by omega)
        (by rw [hmod k]; exact hstop)
        (fun j hj => by rw [hmod j]; exact hleast (j + 1) (by omega))
      rw [hmod k] at this
      exact this

theorem getId_spec (d : Dict) (w : List Nat)
    (hcons : ConsistentIndex d)
    (hempty : ∃ h, h < MAX_VOCAB_SIZE ∧ d.word2int h = -1)
    (hsize : d.words.length = d.size) :
    ∃ r : Int, getId d w = some r ∧
      (r = -1 ↔ ¬ ∃ e ∈ d.words, e.word = w) ∧
      (r ≠ -1 → 0 ≤ r ∧ r.toNat < d.size ∧
        ∃ e, d.words.get? r.toNat = some e ∧ e.word = w) := by
  obtain ⟨hvalid, hinj, hplaced, hpath, hnodup⟩ := hcons
  obtain ⟨he, heN, heEmpty⟩ := hempty
  have hNpos : 0 < MAX_VOCAB_SIZE := by unfold MAX_VOCAB_SIZE; omega
  set h0 := hash w % MAX_VOCAB_SIZE with hh0def
  have hh0 : h0 < MAX_VOCAB_SIZE := Nat.mod_lt _ hNpos
  have hkstop : probeStop d.word2int d.words w
      ((h0 + (he + MAX_VOCAB_SIZE - h0) % MAX_VOCAB_SIZE) %
        MAX_VOCAB_SIZE) = true := by
    have hslot : (h0 + (he + MAX_VOCAB_SIZE - h0) % MAX_VOCAB_SIZE) %
        MAX_VOCAB_SIZE = he := by
      unfold MAX_VOCAB_SIZE at *
      omega
    rw [hslot]
    unfold probeStop
    rw [heEmpty]
    simp
  have hex : ∃ k, probeStop d.word2int d.words w
      ((h0 + k) % MAX_VOCAB_SIZE) = true := ⟨_, hkstop⟩
  have hks_le : Nat.find hex ≤ (he + MAX_VOCAB_SIZE - h0) % MAX_VOCAB_SIZE :=
    Nat.find_min' hex hkstop
  have hksN : Nat.find hex < MAX_VOCAB_SIZE :=
    lt_of_le_of_lt hks_le (Nat.mod_lt _ hNpos)
  have hfind := Nat.find_spec hex
  have hleast : ∀ j, j < Nat.find hex →
      probeStop d.word2int d.words w ((h0 + j) % MAX_VOCAB_SIZE) = false := by
    intro j hj
    have h2 := Nat.find_min hex hj
    revert h2
    cases probeStop d.word2int d.words w ((h0 + j) % MAX_VOCAB_SIZE) <;> simp
  have hprobe := probe_eq_some_of_least d.word2int d.words w (Nat.find hex)
    h0 MAX_VOCAB_SIZE hh0 hksN hfind hleast
  set s := (h0 + Nat.find hex) % MAX_VOCAB_SIZE with hsdef
  have hsN : s < MAX_VOCAB_SIZE := Nat.mod_lt _ hNpos
  have hgetId : getId d w = some (d.word2int s) := by
    unfold getId find
    rw [← hh0def, hprobe]
    rfl
  have hstopcases : d.word2int s = -1 ∨
      wordAt d.words (d.word2int s) = some w := by
    unfold probeStop at hfind
    rcases Bool.or_eq_true_iff.mp hfind with h | h
    · exact Or.inl (by exact_mod_cast of_decide_eq_true h)
    · exact Or.inr (of_decide_eq_true h)
  have hfound : d.word2int s ≠ -1 →
      0 ≤ d.word2int s ∧ (d.word2int s).toNat < d.words.length ∧
      ∃ e, d.words.get? (d.word2int s).toNat = some e ∧ e.word = w := by
    intro hne
    rcases hstopcases with h | h
    · exact absurd h hne
    · rcases hvalid s hsN with h1 | ⟨h1, h2⟩
      · exact absurd h1 hne
      · unfold wordAt at h
        rw [if_neg (by omega)] at h
        rcases Option.map_eq_some'.mp h with ⟨e, hge, hew⟩
        exact ⟨h1, h2, e, hge, hew⟩
  refine ⟨d.word2int s, hgetId, ⟨?_, ?_⟩, ?_⟩
  · -- empty slot implies the word is absent
    intro hr habs
    obtain ⟨e, hmem, hew⟩ := habs
    obtain ⟨p, hp⟩ := List.mem_iff_get?.mp hmem
    have hplen : p < d.words.length := by
      rcases List.get?_eq_some.mp hp with ⟨hlt, _⟩
      exact hlt
    obtain ⟨hp_slot, hpN, hpeq⟩ := hplaced p hplen
    have hwp : wordAtPos d p = w := by
      unfold wordAtPos
      rw [hp]
      simp [hew]
    have hmodid : (h0 + (hp_slot + MAX_VOCAB_SIZE - h0) % MAX_VOCAB_SIZE) %
        MAX_VOCAB_SIZE = hp_slot := by
      unfold MAX_VOCAB_SIZE at *
      omega
    have hstop_p : probeStop d.word2int d.words w
        ((h0 + (hp_slot + MAX_VOCAB_SIZE - h0) % MAX_VOCAB_SIZE) %
          MAX_VOCAB_SIZE) = true := by
      rw [hmodid]
      unfold probeStop wordAt
      rw [hpeq]
      simp only [decide_eq_true_eq, Bool.or_eq_true]
      right
      simp only [if_neg (by omega : ¬ ((p : Int) < 0)), Int.toNat_natCast,
        Option.map_eq_some']
      exact ⟨e, hp, hew⟩
    have hks_le_p : Nat.find hex ≤
        (hp_slot + MAX_VOCAB_SIZE - h0) % MAX_VOCAB_SIZE :=
      Nat.find_min' hex hstop_p
    rcases Nat.lt_or_ge (Nat.find hex)
      ((hp_slot + MAX_VOCAB_SIZE - h0) % MAX_VOCAB_SIZE) with hlt | hge
    · -- a strictly earlier slot on the path would have to be occupied
      have hocc := hpath hp_slot hpN p hplen hpeq (Nat.find hex)
        (by rw [hwp, ← hh0def]; exact hlt)
      rw [hwp, ← hh0def] at hocc
      exact hocc hr
    · have heq : Nat.find hex =
          (hp_slot + MAX_VOCAB_SIZE - h0) % MAX_VOCAB_SIZE := by omega
      have hseq : s = hp_slot := by rw [hsdef, heq, hmodid]
      rw [hseq, hpeq] at hr
      omega
  · -- absence implies the probe ended at an empty slot
    intro habs
    by_contra hr
    obtain ⟨h1, h2, e, hge, hew⟩ := hfound hr
    exact habs ⟨e, List.get?_mem hge, hew⟩
  · intro hr
    obtain ⟨h1, h2, e, hge, hew⟩ := hfound hr
    exact ⟨h1, by omega, e, hge, hew⟩



theorem c1dict_consistent : ConsistentIndex c1dict := by
  have htbl : ∀ h : Nat, c1dict.word2int h =
      if h = 16002220 then 0 else if h = 17362777 then 1 else -1 :=
    fun h => rfl
  refine ⟨?_, ?_, ?_, ?_, by decide⟩
  · intro h hN
    rw [htbl]
    split_ifs
    · right; constructor <;> decide
    · right; constructor <;> decide
    · left; rfl
  · intro h1 hN1 h2 hN2 hne heq
    rw [htbl, htbl] at heq
    rw [htbl] at hne
    split_ifs at heq hne <;> omega
  · intro p hp
    have hp2 : p < 2 := hp
    interval_cases p
    · exact ⟨16002220, by decide, by decide⟩
    · exact ⟨17362777, by decide, by decide⟩
  · intro hslot hN p hp hpeq k hk
    have hp2 : p < 2 := hp
    rw [htbl] at hpeq
    interval_cases p
    · have hw : hash (wordAtPos c1dict 0) % MAX_VOCAB_SIZE = 16002220 := by
        decide
      rw [hw] at hk
      by_cases hA : hslot = 16002220
      · subst hA
        unfold MAX_VOCAB_SIZE at hk
        omega
      · by_cases hB : hslot = 17362777
        · rw [if_neg hA, if_pos hB] at hpeq; omega
        · rw [if_neg hA, if_neg hB] at hpeq; omega
    · have hw : hash (wordAtPos c1dict 1) % MAX_VOCAB_SIZE = 17362777 := by
        decide
      rw [hw] at hk
      by_cases hA : hslot = 16002220
      · rw [if_pos hA] at hpeq; omega
      · by_cases hB : hslot = 17362777
        · subst hB
          unfold MAX_VOCAB_SIZE at hk
          omega
        · rw [if_neg hA, if_neg hB] at hpeq; omega

/-- C9: given a hash index consistent with the store and holding at least
one empty slot, `getId(w)` returns -1 exactly when no entry with word text
`w` is present; otherwise it returns a position `p` with `0 ≤ p < size`
whose entry has word text `w`. -/
theorem C9_getId_membership (d : Dict) (w : List Nat)
    (hcons : ConsistentIndex d)
    (hempty : ∃ h, h < MAX_VOCAB_SIZE ∧ d.word2int h = -1)
    (hsize : d.words.length = d.size) :
    ∃ r : Int, getId d w = some r ∧
      (r = -1 ↔ ¬ ∃ e ∈ d.words, e.word = w) ∧
      (r ≠ -1 → 0 ≤ r ∧ r.toNat < d.size ∧
        ∃ e, d.words.get? r.toNat = some e ∧ e.word = w) :=
  getId_spec d w hcons hempty hsize

/-- Witness for C9 at the concrete consistent dictionary `c1dict` and the
in-vocabulary word `"a"`. -/
theorem C9_getId_membership_witness :
    ∃ r : Int, getId c1dict [97] = some r ∧
      (r = -1 ↔ ¬ ∃ e ∈ c1dict.words, e.word = [97]) ∧
      (r ≠ -1 → 0 ≤ r ∧ r.toNat < c1dict.size ∧
        ∃ e, c1dict.words.get? r.toNat = some e ∧ e.word = [97]) :=
  C9_getId_membership c1dict [97] c1dict_consistent
    ⟨0, by decide, by decide⟩ rfl



theorem probe_lt (tbl : Nat → Int) (ws : List entry) (w : List Nat) :
    ∀ (fuel h0 h : Nat), h0 < MAX_VOCAB_SIZE →
      probe tbl ws w h0 fuel = some h → h < MAX_VOCAB_SIZE := by
  intro fuel
  induction fuel with
  | zero => intro h0 h _ hp; simp [probe] at hp
  | succ f ih =>
    intro h0 h hh0 hp
    unfold probe at hp
    by_cases hs : probeStop tbl ws w h0 = true
    · rw [hs] at hp
      simp at hp
      omega
    · rw [Bool.not_eq_true] at hs
      rw [hs] at hp
      simp only [Bool.false_eq_true, if_false] at hp
      exact ih _ h (Nat.mod_lt _ (by unfold MAX_VOCAB_SIZE; omega)) hp

theorem pos_unique (ws : List entry) (hnodup : (ws.map entry.word).Nodup)
    (p1 p2 : Nat) (e1 e2 : entry) (hge1 : ws.get? p1 = some e1)
    (hge2 : ws.get? p2 = some e2) (hw : e1.word = e2.word) : p1 = p2 := by
  have hm1 : (ws.map entry.word).get? p1 = some e1.word := by
    rw [List.get?_map, hge1]
    rfl
  have hm2 : (ws.map entry.word).get? p2 = some e2.word := by
    rw [List.get?_map, hge2]
    rfl
  have hlt1 : p1 < (ws.map entry.word).length := by
    rcases List.get?_eq_some.mp hm1 with ⟨h, _⟩
    exact h
  apply List.get?_inj hlt1 hnodup
  rw [hm1, hm2, hw]

theorem lineIdsStep_count (d : Dict) (rng : Nat → ℚ) (st : LineIds)
    (t : List Nat) (hcons : ConsistentIndex d)
    (hempty : ∃ h, h < MAX_VOCAB_SIZE ∧ d.word2int h = -1)
    (hsize : d.words.length = d.size) :
    ∃ st', lineIdsStep d rng st t = some st' ∧
      st'.ntokens = st.ntokens +
        (if ∃ e ∈ d.words, e.word = t then 1 else 0) := by
  obtain ⟨r, hget, hiff, hbounds⟩ := getId_spec d t hcons hempty hsize
  obtain ⟨h, hfind, hr⟩ := Option.map_eq_some'.mp hget
  unfold lineIdsStep
  rw [hfind]
  simp only [Option.some_bind]
  have hhN : h < MAX_VOCAB_SIZE :=
    probe_lt d.word2int d.words t MAX_VOCAB_SIZE _ h
      (Nat.mod_lt _ (by unfold MAX_VOCAB_SIZE; omega)) hfind
  by_cases hneg : d.word2int h < 0
  · have hrm1 : r = -1 := by
      rcases hcons.1 h hhN with h1 | ⟨h1, _⟩
      · rw [← hr]; exact h1
      · omega
    have habs : ¬ ∃ e ∈ d.words, e.word = t := hiff.mp hrm1
    rw [if_pos hneg]
    exact ⟨_, rfl, by simp [habs]⟩
  · rw [if_neg hneg]
    have hrne : r ≠ -1 := by omega
    obtain ⟨hr0, hrlen, e, hge, hew⟩ := hbounds hrne
    have hpres : ∃ e2 ∈ d.words, e2.word = t := ⟨e, List.get?_mem hge, hew⟩
    rw [← hr] at hge
    rw [hge]
    simp only [Option.some_bind]
    by_cases hty : e.type = entry_type.word
    · rw [if_pos hty]
      by_cases hd : (!discard d (d.word2int h).toNat (rng st.rngIdx)) = true
      · rw [if_pos hd]
        exact ⟨_, rfl, by simp [hpres]⟩
      · rw [if_neg hd]
        exact ⟨_, rfl, by simp [hpres]⟩
    · rw [if_neg hty]
      by_cases hl : e.type = entry_type.label
      · rw [if_pos hl]
        exact ⟨_, rfl, by simp [hpres]⟩
      · rw [if_neg hl]
        exact ⟨_, rfl, by simp [hpres]⟩

theorem lineIds_count (d : Dict) (rng : Nat → ℚ)
    (hcons : ConsistentIndex d)
    (hempty : ∃ h, h < MAX_VOCAB_SIZE ∧ d.word2int h = -1)
    (hsize : d.words.length = d.size) :
    ∀ (tokens : List (List Nat)) (st st' : LineIds),
      tokens.foldlM (lineIdsStep d rng) st = some st' →
      st'.ntokens = st.ntokens +
        tokens.countP (fun t => decide (∃ e ∈ d.words, e.word = t)) := by
  intro tokens
  induction tokens with
  | nil =>
    intro st st' hf
    simp [List.foldlM_nil] at hf
    subst hf
    simp
  | cons t rest ih =>
    intro st st' hf
    rw [List.foldlM_cons] at hf
    obtain ⟨st1, hstep, hcount⟩ := lineIdsStep_count d rng st t hcons hempty hsize
    rw [hstep] at hf
    have h2 := ih st1 st' hf
    rw [h2, hcount, List.countP_cons]
    by_cases hp : ∃ e ∈ d.words, e.word = t
    · rw [if_pos hp]
      simp [hp]
      omega
    · rw [if_neg hp]
      simp [hp]


theorem lineIdsStep_absent (d : Dict) (rng : Nat → ℚ) (st : LineIds)
    (t : List Nat) (hcons : ConsistentIndex d)
    (hempty : ∃ h, h < MAX_VOCAB_SIZE ∧ d.word2int h = -1)
    (hsize : d.words.length = d.size)
    (habs : ¬ ∃ e ∈ d.words, e.word = t) :
    lineIdsStep d rng st t =
      some { st with word_hashes := st.word_hashes ++ [toI32 (hash t)] } := by
  obtain ⟨r, hget, hiff, _⟩ := getId_spec d t hcons hempty hsize
  obtain ⟨h, hfind, hr⟩ := Option.map_eq_some'.mp hget
  have hrm1 : r = -1 := hiff.mpr habs
  unfold lineIdsStep
  rw [hfind]
  simp only [Option.some_bind]
  rw [if_pos (by rw [hr, hrm1]; decide)]

theorem lineIdsStep_discarded (d : Dict) (rng : Nat → ℚ) (st : LineIds)
    (t : List Nat) (p : Nat) (e : entry) (hcons : ConsistentIndex d)
    (hempty : ∃ h, h < MAX_VOCAB_SIZE ∧ d.word2int h = -1)
    (hsize : d.words.length = d.size)
    (hge : d.words.get? p = some e) (hew : e.word = t)
    (hty : e.type = entry_type.word)
    (hdisc : discard d p (rng st.rngIdx) = true) :
    lineIdsStep d rng st t =
      some { st with ntokens := st.ntokens + 1, rngIdx := st.rngIdx + 1 } := by
  obtain ⟨r, hget, hiff, hbounds⟩ := getId_spec d t hcons hempty hsize
  have hpres : ∃ e2 ∈ d.words, e2.word = t := ⟨e, List.get?_mem hge, hew⟩
  have hrne : r ≠ -1 := fun hh => (hiff.mp hh) hpres
  obtain ⟨hr0, hrlen, e2, hge2, hew2⟩ := hbounds hrne
  obtain ⟨h, hfind, hr⟩ := Option.map_eq_some'.mp hget
  have hpr : r.toNat = p :=
    pos_unique d.words hcons.2.2.2.2 r.toNat p e2 e hge2 hge
      (by rw [hew2, hew])
  unfold lineIdsStep
  rw [hfind]
  simp only [Option.some_bind]
  rw [if_neg (by rw [hr]; omega), hr, hpr, hge]
  simp only [Option.some_bind]
  rw [if_pos hty, hdisc]
  simp

/-- C10: the id-converting `getLine` returns the number of in-vocabulary
tokens on the read line; an out-of-vocabulary token only appends its raw hash
to the hash list and is not counted; an in-vocabulary word-type token is
counted even when subsampling discards it from the word-id sequence. -/
theorem C10_getLine_ntokens :
    (∀ (d : Dict) (corpus : List Nat) (s : Stream) (rng : Nat → ℚ)
      (li : LineIds) (s2 : Stream),
      ConsistentIndex d → (∃ h, h < MAX_VOCAB_SIZE ∧ d.word2int h = -1) →
      d.words.length = d.size →
      getLineIds d corpus s rng = some (li, s2) →
      li.ntokens = (getLineTokens corpus s d.args).1.countP
        (fun t => decide (∃ e ∈ d.words, e.word = t))) ∧
    (∀ (d : Dict) (rng : Nat → ℚ) (st : LineIds) (t : List Nat),
      ConsistentIndex d → (∃ h, h < MAX_VOCAB_SIZE ∧ d.word2int h = -1) →
      d.words.length = d.size → (¬ ∃ e ∈ d.words, e.word = t) →
      lineIdsStep d rng st t =
        some { st with word_hashes := st.word_hashes ++ [toI32 (hash t)] }) ∧
    (∀ (d : Dict) (rng : Nat → ℚ) (st : LineIds) (t : List Nat) (p : Nat)
      (e : entry),
      ConsistentIndex d → (∃ h, h < MAX_VOCAB_SIZE ∧ d.word2int h = -1) →
      d.words.length = d.size →
      d.words.get? p = some e → e.word = t → e.type = entry_type.word →
      discard d p (rng st.rngIdx) = true →
      lineIdsStep d rng st t =
        some { st with ntokens := st.ntokens + 1,
                       rngIdx := st.rngIdx + 1 }) := by
  refine ⟨?_, lineIdsStep_absent, lineIdsStep_discarded⟩
  intro d corpus s rng li s2 hcons hempty hsize hget
  unfold getLineIds at hget
  cases hli : lineIds d rng (getLineTokens corpus s d.args).1 with
  | none => rw [hli] at hget; simp at hget
  | some li0 =>
    rw [hli] at hget
    simp only [Option.some.injEq, Prod.mk.injEq] at hget
    have hcount := lineIds_count d rng hcons hempty hsize
      (getLineTokens corpus s d.args).1 {} li0 hli
    rw [← hget.1]
    simpa using hcount

theorem c10dict_consistent : ConsistentIndex c10dict := c1dict_consistent

/-- Witness for C10: the line `"a x\n"` under `c1dict` has two in-vocabulary
tokens; the unknown token `"x"` only contributes its hash; under the cbow
variant a discarded known word is still counted. -/
theorem C10_getLine_ntokens_witness :
    (∃ p : LineIds × Stream,
      getLineIds c1dict [97, 32, 120, 10] ⟨[97, 32, 120, 10], false⟩
        (fun _ => 0) = some p ∧
      p.1.ntokens = (getLineTokens [97, 32, 120, 10] ⟨[97, 32, 120, 10], false⟩
        c1dict.args).1.countP
        (fun t => decide (∃ e ∈ c1dict.words, e.word = t))) ∧
    lineIdsStep c1dict (fun _ => 0) {} [120] =
      some { ({} : LineIds) with
             word_hashes := [] ++ [toI32 (hash [120])] } ∧
    lineIdsStep c10dict (fun _ => 1) {} [97] =
      some { ({} : LineIds) with ntokens := 0 + 1, rngIdx := 0 + 1 } := by
  refine ⟨?_, ?_, ?_⟩
  · cases hg : getLineIds c1dict [97, 32, 120, 10] ⟨[97, 32, 120, 10], false⟩
      (fun _ => 0) with
    | none =>
      have hsome : (getLineIds c1dict [97, 32, 120, 10]
          ⟨[97, 32, 120, 10], false⟩ (fun _ => 0)).isSome = true := by decide
      rw [hg] at hsome
      simp at hsome
    | some p =>
      exact ⟨p, rfl, C10_getLine_ntokens.1 c1dict [97, 32, 120, 10]
        ⟨[97, 32, 120, 10], false⟩ (fun _ => 0) p.1 p.2 c1dict_consistent
        ⟨0, by decide, by decide⟩ rfl hg⟩
  · exact C10_getLine_ntokens.2.1 c1dict (fun _ => 0) {} [120]
      c1dict_consistent ⟨0, by decide, by decide⟩ rfl (by decide)
  · exact C10_getLine_ntokens.2.2 c10dict (fun _ => 1) {} [97] 0
      ⟨[97], 1, entry_type.word, []⟩ c10dict_consistent
      ⟨0, by decide, by decide⟩ rfl (by decide) (by decide) (by decide)
      (by decide)

end fasttext

namespace fasttext

theorem readLE_bytesLE (k : Nat) :
    ∀ (x : Nat) (rest : List Nat), x < 256 ^ k →
      readLE k (bytesLE k x ++ rest) = some (x, rest) := by
  induction k with
  | zero =>
    intro x rest hx
    have : x = 0 := by simpa using hx
    subst this
    simp [bytesLE, readLE]
  | succ k ih =>
    intro x rest hx
    have hdiv : x / 256 < 256 ^ k := by
      rw [Nat.div_lt_iff_lt_mul (by omega)]
      calc x < 256 ^ (k + 1) := hx
        _ = 256 ^ k * 256 := by ring
    unfold bytesLE
    rw [List.cons_append]
    show Option.map (fun p => (x % 256 + 256 * p.1, p.2))
      (readLE k (bytesLE k (x / 256) ++ rest)) = some (x, rest)
    rw [ih (x / 256) rest hdiv]
    simp only [Option.map_some']
    have : x % 256 + 256 * (x / 256) = x := by omega
    rw [this]

theorem readCStr_encode (w : List Nat) :
    ∀ rest, (∀ b ∈ w, b ≠ 0) → readCStr (w ++ 0 :: rest) = some (w, rest) := by
  induction w with
  | nil => intro rest _; simp [readCStr]
  | cons b t ih =>
    intro rest hb
    have hb0 : b ≠ 0 := hb b (List.mem_cons_self b t)
    rw [List.cons_append]
    cases b with
    | zero => exact absurd rfl hb0
    | succ n =>
      show Option.map (fun p => ((n + 1) :: p.1, p.2))
        (readCStr (t ++ 0 :: rest)) = some ((n + 1) :: t, rest)
      rw [ih rest fun x hx => hb x (List.mem_cons_of_mem _ hx)]
      rfl

theorem tagToType_tag (ty : entry_type) : tagToType ty.tag = some ty := by
  cases ty <;> rfl

end fasttext

namespace fasttext

theorem readLE_one (b : Nat) (bs : List Nat) :
    readLE 1 (b :: bs) = some (b, bs) := by
  unfold readLE
  show Option.map (fun p => (b + 256 * p.1, p.2)) (readLE 0 bs) = some (b, bs)
  unfold readLE
  simp

theorem loadEntries_encode (es : List entry) :
    ∀ rest, (∀ e ∈ es, (∀ b ∈ e.word, b ≠ 0) ∧ e.count < 18446744073709551616) →
      loadEntries es.length (es.flatMap encodeEntry ++ rest) =
        some (es.map fun e =>
          { word := e.word, count := e.count, type := e.type }, rest) := by
  induction es with
  | nil => intro rest _; simp [loadEntries]
  | cons e t ih =>
    intro rest hok
    obtain ⟨hw0, hc⟩ := hok e (List.mem_cons_self e t)
    rw [List.flatMap_cons, List.length_cons]
    unfold loadEntries
    have harr : (encodeEntry e ++ t.flatMap encodeEntry) ++ rest =
        e.word ++ 0 :: (bytesLE 8 e.count ++ e.type.tag ::
          (t.flatMap encodeEntry ++ rest)) := by
      unfold encodeEntry
      simp [List.append_assoc]
    rw [harr, readCStr_encode e.word _ hw0]
    simp only [Option.bind_eq_bind, Option.some_bind]
    rw [readLE_bytesLE 8 e.count _ (by norm_num at hc ⊢; omega)]
    simp only [Option.bind_eq_bind, Option.some_bind]
    rw [readLE_one]
    simp only [Option.bind_eq_bind, Option.some_bind]
    rw [tagToType_tag]
    simp only [Option.bind_eq_bind, Option.some_bind]
    rw [ih rest fun x hx => hok x (List.mem_cons_of_mem _ hx)]
    simp only [Option.bind_eq_bind, Option.some_bind]
    rfl

theorem loadQuant_encode (q : List (Nat × Nat)) :
    ∀ (q0 : List (Nat × Nat)) (rest : List Nat),
      (∀ kv ∈ q, kv.1 < 4294967296 ∧ kv.2 < 4294967296) →
      loadQuant q.length q0
        (q.flatMap (fun p => bytesLE 4 p.1 ++ bytesLE 4 p.2) ++ rest) =
        some (q.foldl (fun acc kv => assocSet acc kv.1 kv.2) q0, rest) := by
  induction q with
  | nil => intro q0 rest _; simp [loadQuant]
  | cons kv t ih =>
    intro q0 rest hok
    obtain ⟨h1, h2⟩ := hok kv (List.mem_cons_self kv t)
    rw [List.flatMap_cons, List.length_cons]
    unfold loadQuant
    have harr : ((bytesLE 4 kv.1 ++ bytesLE 4 kv.2) ++
        t.flatMap (fun p => bytesLE 4 p.1 ++ bytesLE 4 p.2)) ++ rest =
        bytesLE 4 kv.1 ++ (bytesLE 4 kv.2 ++
          (t.flatMap (fun p => bytesLE 4 p.1 ++ bytesLE 4 p.2) ++ rest)) := by
      simp [List.append_assoc]
    rw [harr, readLE_bytesLE 4 kv.1 _ (by norm_num at h1 ⊢; omega)]
    simp only [Option.bind_eq_bind, Option.some_bind]
    rw [readLE_bytesLE 4 kv.2 _ (by norm_num at h2 ⊢; omega)]
    simp only [Option.bind_eq_bind, Option.some_bind]
    rw [ih (assocSet q0 kv.1 kv.2) rest
      fun x hx => hok x (List.mem_cons_of_mem _ hx)]
    rfl

theorem probe_isSome (tbl : Nat → Int) (ws : List entry) (w : List Nat)
    (h0 : Nat) (hh0 : h0 < MAX_VOCAB_SIZE)
    (hempty : ∃ he, he < MAX_VOCAB_SIZE ∧ tbl he = -1) :
    ∃ s, probe tbl ws w h0 MAX_VOCAB_SIZE = some s := by
  obtain ⟨he, heN, heE⟩ := hempty
  have hkstop : probeStop tbl ws w
      ((h0 + (he + MAX_VOCAB_SIZE - h0) % MAX_VOCAB_SIZE) %
        MAX_VOCAB_SIZE) = true := by
    have hslot : (h0 + (he + MAX_VOCAB_SIZE - h0) % MAX_VOCAB_SIZE) %
        MAX_VOCAB_SIZE = he := by
      unfold MAX_VOCAB_SIZE at *
      omega
    rw [hslot]
    unfold probeStop
    rw [heE]
    simp
  have hex : ∃ k, probeStop tbl ws w ((h0 + k) % MAX_VOCAB_SIZE) = true :=
    ⟨_, hkstop⟩
  have hksN : Nat.find hex < MAX_VOCAB_SIZE :=
    lt_of_le_of_lt (Nat.find_min' hex hkstop)
      (Nat.mod_lt _ (by unfold MAX_VOCAB_SIZE; omega))
  have hleast : ∀ j, j < Nat.find hex →
      probeStop tbl ws w ((h0 + j) % MAX_VOCAB_SIZE) = false := by
    intro j hj
    have h2 := Nat.find_min hex hj
    revert h2
    cases probeStop tbl ws w ((h0 + j) % MAX_VOCAB_SIZE) <;> simp
  exact ⟨_, probe_eq_some_of_least tbl ws w (Nat.find hex) h0 MAX_VOCAB_SIZE
    hh0 hksN (Nat.find_spec hex) hleast⟩

end fasttext

namespace fasttext

theorem loadIndex_fold_succeeds (ws : List entry) :
    ∀ (l : List entry) (st0 : (Nat → Int) × Nat) (S : Finset Nat),
      (∀ h ∉ S, st0.1 h = -1) → S.card + l.length < MAX_VOCAB_SIZE →
      ∃ st, l.foldlM
        (fun (st : (Nat → Int) × Nat) e =>
          (probe st.1 ws e.word (hash e.word % MAX_VOCAB_SIZE)
            MAX_VOCAB_SIZE).map
            fun h => (fun h2 => if h2 = h then (st.2 : Int) else st.1 h2,
              st.2 + 1)) st0 = some st := by
  intro l
  induction l with
  | nil => intro st0 S _ _; exact ⟨st0, rfl⟩
  | cons e t ih =>
    intro st0 S hS hcard
    have hnsub : ¬ (Finset.range MAX_VOCAB_SIZE ⊆ S) := by
      intro hsub
      have := Finset.card_le_card hsub
      rw [Finset.card_range] at this
      simp only [List.length_cons] at hcard
      omega
    obtain ⟨he, heR, heS⟩ := Finset.not_subset.mp hnsub
    rw [Finset.mem_range] at heR
    obtain ⟨h, hp⟩ := probe_isSome st0.1 ws e.word
      (hash e.word % MAX_VOCAB_SIZE)
      (Nat.mod_lt _ (by unfold MAX_VOCAB_SIZE; omega))
      ⟨he, heR, hS he heS⟩
    rw [List.foldlM_cons, hp]
    simp only [Option.map_some']
    have hS' : ∀ h2 ∉ insert h S,
        (fun h2 => if h2 = h then (st0.2 : Int) else st0.1 h2) h2 = -1 := by
      intro h2 hh2
      rw [Finset.mem_insert] at hh2
      push_neg at hh2
      simp only [if_neg hh2.1]
      exact hS h2 hh2.2
    have hcard' : (insert h S).card + t.length < MAX_VOCAB_SIZE := by
      have := Finset.card_insert_le h S
      simp only [List.length_cons] at hcard
      omega
    exact ih _ (insert h S) hS' hcard'

theorem loadIndex_succeeds (ws : List entry)
    (hlen : ws.length < MAX_VOCAB_SIZE) :
    ∃ tbl, loadIndex ws = some tbl := by
  obtain ⟨st, hst⟩ := loadIndex_fold_succeeds ws ws
    (fun _ => (-1 : Int), 0) ∅ (fun _ _ => rfl) (by simpa using hlen)
  exact ⟨st.1, by unfold loadIndex; rw [hst]; rfl⟩

theorem enumFrom_map_snd {α β : Type} (g : α → β) (l : List α) :
    ∀ n, (List.enumFrom n l).map (fun p => g p.2) = l.map g := by
  induction l with
  | nil => intro n; rfl
  | cons a t ih => intro n; simp [List.enumFrom, ih]

theorem initNgrams_triples (d : Dict) :
    (initNgrams d).words.map (fun e => (e.word, e.count, e.type)) =
      d.words.map (fun e => (e.word, e.count, e.type)) := by
  unfold initNgrams
  simp only [List.map_map]
  have : ∀ p : Nat × entry,
      ((fun e => (e.word, e.count, e.type)) ∘ fun p : Nat × entry =>
        if p.1 < d.size then
          { p.2 with subwords := p.2.subwords ++
              p.1 :: computeNgrams d.args d.nwords (BOW ++ p.2.word ++ EOW) }
        else p.2) p = (p.2.word, p.2.count, p.2.type) := by
    intro p
    by_cases hp : p.1 < d.size <;> simp [hp]
  rw [List.map_congr_left fun p _ => this p]
  exact enumFrom_map_snd (fun e => (e.word, e.count, e.type)) d.words 0

end fasttext

namespace fasttext

theorem initNgrams_subwords (d : Dict) (hlen : d.words.length = d.size)
    (hz : ∀ e ∈ d.words, e.subwords = []) :
    (initNgrams d).words.map entry.subwords =
      d.words.enum.map
        (fun p => p.1 :: computeNgrams d.args d.nwords
          (BOW ++ p.2.word ++ EOW)) := by
  unfold initNgrams
  simp only [List.map_map]
  apply List.map_congr_left
  intro p hp
  have hget : d.words.get? p.1 = some p.2 := by
    have := List.mem_enum_iff_get?.mp (by exact hp)
    exact this
  have hplt : p.1 < d.size := by
    rcases List.get?_eq_some.mp hget with ⟨h, _⟩
    omega
  have hmem : p.2 ∈ d.words := List.get?_mem hget
  simp only [Function.comp_apply, if_pos hplt, hz p.2 hmem,
    List.nil_append]

theorem C2_save_load_roundtrip (d dL : Dict)
    (hsz : d.words.length = d.size)
    (hlenN : d.words.length < MAX_VOCAB_SIZE)
    (hok : ∀ e ∈ d.words,
      (∀ b ∈ e.word, b ≠ 0) ∧ e.count < 18446744073709551616)
    (hsize32 : d.size < 4294967296) (hnw32 : d.nwords < 4294967296)
    (hnl32 : d.nlabels < 4294967296)
    (hnt64 : d.ntokens < 18446744073709551616)
    (hq : dL.quant = d.quant) (hargs : dL.args = d.args)
    (hql : d.quantidx.length < 18446744073709551616)
    (hqb : ∀ kv ∈ d.quantidx, kv.1 < 4294967296 ∧ kv.2 < 4294967296)
    (hfresh : ∀ p ∈ d.words.enum, p.2.subwords =
      p.1 :: computeNgrams d.args d.nwords (BOW ++ p.2.word ++ EOW)) :
    ∃ dres, load dL (save d) = some dres ∧
      dres.words.map (fun e => (e.word, e.count, e.type)) =
        d.words.map (fun e => (e.word, e.count, e.type)) ∧
      dres.words.map entry.subwords = d.words.map entry.subwords ∧
      dres.size = d.size ∧ dres.nwords = d.nwords ∧
      dres.nlabels = d.nlabels ∧ dres.ntokens = d.ntokens := by
  have h232 : (4294967296 : Nat) = 256 ^ 4 := by norm_num
  have h264 : (18446744073709551616 : Nat) = 256 ^ 8 := by norm_num
  set qpart : List Nat := (if d.quant then
      bytesLE 8 d.quantidx.length ++
        d.quantidx.flatMap (fun p => bytesLE 4 p.1 ++ bytesLE 4 p.2)
    else []) with hqpart
  have hsave : save d = bytesLE 4 d.size ++ (bytesLE 4 d.nwords ++
      (bytesLE 4 d.nlabels ++ (bytesLE 8 d.ntokens ++
        (d.words.flatMap encodeEntry ++ qpart)))) := by
    unfold save
    rw [← hsz, List.take_length, hqpart]
    simp [List.append_assoc]
  unfold load
  rw [hsave]
  rw [readLE_bytesLE 4 d.size _ (by omega)]
  simp only [Option.bind_eq_bind, Option.some_bind]
  rw [readLE_bytesLE 4 d.nwords _ (by omega)]
  simp only [Option.bind_eq_bind, Option.some_bind]
  rw [readLE_bytesLE 4 d.nlabels _ (by omega)]
  simp only [Option.bind_eq_bind, Option.some_bind]
  rw [readLE_bytesLE 8 d.ntokens _ (by omega)]
  simp only [Option.bind_eq_bind, Option.some_bind]
  rw [show d.size = d.words.length from hsz.symm]
  rw [loadEntries_encode d.words qpart hok]
  simp only [Option.bind_eq_bind, Option.some_bind]
  set es2 : List entry := d.words.map fun e =>
    { word := e.word, count := e.count, type := e.type } with hes2
  have hlen2 : es2.length = d.words.length := by rw [hes2, List.length_map]
  obtain ⟨tbl, htbl⟩ := loadIndex_succeeds es2 (by omega)
  rw [htbl]
  simp only [Option.bind_eq_bind, Option.some_bind]
  rw [hq]
  have hquant : (if d.quant then loadQuantSection dL.quantidx qpart
      else pure dL.quantidx) =
      some (if d.quant then
        d.quantidx.foldl (fun acc kv => assocSet acc kv.1 kv.2) dL.quantidx
      else dL.quantidx) := by
    cases hqd : d.quant
    · simp
    · rw [hqpart, hqd]
      simp only [eq_self_iff_true, if_true]
      unfold loadQuantSection
      rw [readLE_bytesLE 8 d.quantidx.length _ (by omega)]
      have hlq := loadQuant_encode d.quantidx dL.quantidx [] hqb
      rw [List.append_nil] at hlq
      show (match loadQuant d.quantidx.length dL.quantidx
          (d.quantidx.flatMap fun p => bytesLE 4 p.1 ++ bytesLE 4 p.2) with
        | none => none
        | some (q, _) => some q) =
        some (d.quantidx.foldl (fun acc kv => assocSet acc kv.1 kv.2)
          dL.quantidx)
      rw [hlq]
  have main : ∀ (qv : Bool) (qidx : List (Nat × Nat)),
      ∃ dres, some (initNgrams
        { args := dL.args, word2int := tbl, words := es2,
          size := d.words.length, nwords := d.nwords, nlabels := d.nlabels,
          ntokens := d.ntokens, quant := qv, quantidx := qidx,
          pdiscard := dL.pdiscard }) = some dres ∧
      dres.words.map (fun e => (e.word, e.count, e.type)) =
        d.words.map (fun e => (e.word, e.count, e.type)) ∧
      dres.words.map entry.subwords = d.words.map entry.subwords ∧
      dres.size = d.words.length ∧ dres.nwords = d.nwords ∧
      dres.nlabels = d.nlabels ∧ dres.ntokens = d.ntokens := by
    intro qv qidx
    refine ⟨_, rfl, ?_, ?_, ?_, ?_, ?_, ?_⟩
    · rw [initNgrams_triples]
      show es2.map (fun e => (e.word, e.count, e.type)) = _
      rw [hes2, List.map_map]
      rfl
    · rw [initNgrams_subwords _ (by rw [hes2]; simp) (by
        intro e he
        rw [hes2] at he
        obtain ⟨x, _, hx⟩ := List.mem_map.mp he
        rw [← hx])]
      show (es2.enum.map fun p => p.1 :: computeNgrams dL.args d.nwords
        (BOW ++ p.2.word ++ EOW)) = d.words.map entry.subwords
      have hr : d.words.map entry.subwords =
          d.words.enum.map (fun p => p.2.subwords) :=
        (enumFrom_map_snd entry.subwords d.words 0).symm
      rw [hr, hes2, List.enum_map, List.map_map, hargs]
      apply List.map_congr_left
      intro p hp
      have hf := hfresh p hp
      simp only [Function.comp_apply, Prod.map_apply, id_eq]
      rw [hf]
      obtain ⟨i, e⟩ := p
      rfl
    · rfl
    · rfl
    · rfl
    · rfl
  cases hqd : d.quant with
  | false =>
    rw [hqd] at hquant
    simp only [Bool.false_eq_true, if_false] at hquant ⊢
    simp only [Option.pure_def, Option.some_bind]
    exact main false dL.quantidx
  | true =>
    rw [hqd] at hquant
    simp only [if_true] at hquant ⊢
    rw [hquant]
    simp only [Option.bind_eq_bind, Option.some_bind, Option.pure_def]
    exact main true _



/-- Closed instance of the save/load roundtrip at a concrete two-word
dictionary with fresh subword caches. -/
theorem C2_save_load_roundtrip_witness :
    ∃ dres, load (emptyDict c1args fun _ => 0) (save (initNgrams c1dict)) =
        some dres ∧
      dres.words.map (fun e => (e.word, e.count, e.type)) =
        (initNgrams c1dict).words.map (fun e => (e.word, e.count, e.type)) ∧
      dres.words.map entry.subwords =
        (initNgrams c1dict).words.map entry.subwords ∧
      dres.size = (initNgrams c1dict).size ∧
      dres.nwords = (initNgrams c1dict).nwords ∧
      dres.nlabels = (initNgrams c1dict).nlabels ∧
      dres.ntokens = (initNgrams c1dict).ntokens :=
  C2_save_load_roundtrip (initNgrams c1dict) (emptyDict c1args fun _ => 0)
    (by decide) (by decide) (by decide) (by decide) (by decide) (by decide)
    (by decide) (by decide) (by decide) (by decide) (by decide) (by decide)

end fasttext

namespace fasttext

/-- `spanCont` splits off exactly a run of continuation bytes when the rest
starts with a non-continuation byte (or is empty). -/
theorem spanCont_append (t rest : List Nat) (ht : ∀ x ∈ t, contByte x = true)
    (hr : rest = [] ∨ ∃ b r, rest = b :: r ∧ contByte b = false) :
    spanCont (t ++ rest) = (t, rest) := by
  induction t with
  | nil =>
    rcases hr with h | ⟨b, r, hb, hc⟩
    · simp [h, spanCont]
    · simp [hb, spanCont, hc]
  | cons a t ih =>
    have ha := ht a (by simp)
    have ih2 := ih fun x hx => ht x (by simp [hx])
    simp [spanCont, ha, ih2]

/-- The byte stream of a valid codepoint list is empty or led by a
non-continuation byte. -/
theorem flatten_head (cps : List (List Nat)) (h : ∀ cp ∈ cps, ValidCp cp) :
    cps.flatten = [] ∨ ∃ b r, cps.flatten = b :: r ∧ contByte b = false := by
  cases cps with
  | nil => left; rfl
  | cons cp rest =>
    have hcp := h cp (by simp)
    cases cp with
    | nil => exact absurd hcp (by simp [ValidCp])
    | cons b t =>
      right
      exact ⟨b, t ++ rest.flatten, by simp, hcp.1⟩

/-- The byte stream of a valid codepoint list is empty iff the list is. -/
theorem flatten_nil_iff (cps : List (List Nat)) (h : ∀ cp ∈ cps, ValidCp cp) :
    cps.flatten = [] ↔ cps = [] := by
  cases cps with
  | nil => simp
  | cons cp rest =>
    have hcp := h cp (by simp)
    cases cp with
    | nil => exact absurd hcp (by simp [ValidCp])
    | cons b t => simp

/-- The byte-level n-gram scan agrees with the codepoint-level one when the
fuel covers the remaining lengths. -/
theorem ngramLoop_cp (args : Args) (nw : Nat) (atStart : Bool)
    (cps : List (List Nat)) (hv : ∀ cp ∈ cps, ValidCp cp) :
    ∀ fuel n ngram, args.maxn + 2 ≤ fuel + n →
      ngramLoop args nw atStart fuel cps.flatten n ngram =
        cpLoop args nw atStart cps n ngram := by
  induction cps with
  | nil =>
    intro fuel n ngram _
    cases fuel <;> rfl
  | cons cp rest ih =>
    intro fuel n ngram hf
    have hcp := hv cp (by simp)
    have hvr : ∀ c ∈ rest, ValidCp c := fun c hc => hv c (by simp [hc])
    cases cp with
    | nil => exact absurd hcp (by simp [ValidCp])
    | cons b t =>
      have hflat : ((b :: t) :: rest).flatten = b :: (t ++ rest.flatten) := by
        simp
      rw [hflat]
      cases fuel with
      | zero =>
        have hn : args.maxn < n := by omega
        show ([] : List Nat) = _
        unfold cpLoop
        rw [if_pos hn]
      | succ f =>
        show ngramLoop args nw atStart (f + 1) (b :: (t ++ rest.flatten))
          n ngram = _
        unfold ngramLoop cpLoop
        by_cases hn : args.maxn < n
        · rw [if_pos hn, if_pos hn]
        · rw [if_neg hn, if_neg hn]
          have hspan : spanCont (t ++ rest.flatten) = (t, rest.flatten) :=
            spanCont_append t rest.flatten hcp.2 (flatten_head rest hvr)
          simp only [hspan]
          have hiff : (args.minn ≤ n ∧
              ¬(n = 1 ∧ (atStart ∨ rest.flatten = []))) ↔
              (args.minn ≤ n ∧ ¬(n = 1 ∧ (atStart ∨ rest = []))) := by
            rw [flatten_nil_iff rest hvr]
          rw [if_congr hiff rfl rfl,
            ih hvr f (n + 1) (ngram ++ b :: t) (by omega)]

end fasttext

namespace fasttext

/-- The outer scan skips a run of continuation bytes. -/
theorem computeNgramsAux_cont (args : Args) (nw : Nat) (t : List Nat)
    (ht : ∀ x ∈ t, contByte x = true) (r : List Nat) :
    computeNgramsAux args nw (t ++ r) false =
      computeNgramsAux args nw r false := by
  induction t with
  | nil => rfl
  | cons a t ih =>
    have ha := ht a (by simp)
    have ih2 := ih fun x hx => ht x (by simp [hx])
    show (if contByte a then [] else _) ++
      computeNgramsAux args nw (t ++ r) false = _
    rw [ha, if_pos rfl, ih2, List.nil_append]

/-- The byte-level outer scan agrees with the codepoint-level one. -/
theorem computeNgramsAux_cp (args : Args) (nw : Nat) :
    ∀ (cps : List (List Nat)), (∀ cp ∈ cps, ValidCp cp) → ∀ atStart,
      computeNgramsAux args nw cps.flatten atStart =
        cpAux args nw cps atStart := by
  intro cps
  induction cps with
  | nil => intro _ _; rfl
  | cons cp rest ih =>
    intro hv atStart
    have hcp := hv cp (by simp)
    have hvr : ∀ c ∈ rest, ValidCp c := fun c hc => hv c (by simp [hc])
    cases cp with
    | nil => exact absurd hcp (by simp [ValidCp])
    | cons b t =>
      have hflat : ((b :: t) :: rest).flatten = b :: (t ++ rest.flatten) := by
        simp
      rw [hflat]
      show (if contByte b then [] else ngramLoop args nw atStart
          (args.maxn + 1) (b :: (t ++ rest.flatten)) 1 []) ++
        computeNgramsAux args nw (t ++ rest.flatten) false = _
      rw [hcp.1, if_neg (by simp),
        computeNgramsAux_cont args nw t hcp.2 rest.flatten, ih hvr false]
      show _ = cpLoop args nw atStart ((b :: t) :: rest) 1 [] ++
        cpAux args nw rest false
      rw [← hflat, ngramLoop_cp args nw atStart ((b :: t) :: rest) hv
        (args.maxn + 1) 1 [] (by omega)]

/-- The codepoint-level inner scan started at position `k` of `s0` emits the
spec's features for start `k`. -/
theorem cpLoop_spec (args : Args) (nw : Nat) (atStart : Bool)
    (s0 : List (List Nat)) :
    ∀ r k, s0.drop k = r →
      cpLoop args nw atStart r (k + 1) (s0.take k).flatten =
        ((List.range' (k + 1) (min args.maxn s0.length - k)).filter fun m =>
          decide (args.minn ≤ m ∧ ¬(m = 1 ∧ (atStart ∨ m = s0.length)))).map
          (fun m => nw + hash (s0.take m).flatten % args.bucket) := by
  intro r
  induction r with
  | nil =>
    intro k hk
    have hlen : s0.length ≤ k := by
      have h := congrArg List.length hk
      simp at h
      omega
    have h0 : min args.maxn s0.length - k = 0 := by omega
    rw [h0]
    rfl
  | cons cp r' ih =>
    intro k hk
    have hklt : k < s0.length := by
      have h := congrArg List.length hk
      simp at h
      omega
    have hk' : s0.drop (k + 1) = r' := by
      rw [← List.drop_drop, hk]
      rfl
    have hkget : s0[k]? = some cp := by
      have h := List.getElem?_drop s0 k 0
      rw [hk] at h
      simpa using h.symm
    have htake : s0.take (k + 1) = s0.take k ++ [cp] := by
      rw [List.take_succ, hkget]
      rfl
    have hflat2 : (s0.take (k + 1)).flatten = (s0.take k).flatten ++ cp := by
      rw [htake]
      simp
    show cpLoop args nw atStart (cp :: r') (k + 1) (s0.take k).flatten = _
    unfold cpLoop
    by_cases hmax : args.maxn < k + 1
    · rw [if_pos hmax]
      have h0 : min args.maxn s0.length - k = 0 := by omega
      rw [h0]
      rfl
    · rw [if_neg hmax]
      have hc : min args.maxn s0.length - k =
          (min args.maxn s0.length - (k + 1)) + 1 := by omega
      rw [hc, List.range'_succ, List.filter_cons]
      have hend : r' = [] ↔ k + 1 = s0.length := by
        rw [← hk', List.drop_eq_nil_iff]
        omega
      have hiff : (args.minn ≤ k + 1 ∧
          ¬(k + 1 = 1 ∧ (atStart ∨ r' = []))) ↔
          (args.minn ≤ k + 1 ∧
          ¬(k + 1 = 1 ∧ (atStart ∨ k + 1 = s0.length))) := by
        rw [hend]
      have hrec := ih (k + 1) hk'
      rw [← hflat2]
      by_cases hq : args.minn ≤ k + 1 ∧
          ¬(k + 1 = 1 ∧ (atStart ∨ k + 1 = s0.length))
      · rw [if_pos (hiff.mpr hq), if_pos (by exact decide_eq_true hq)]
        rw [List.map_cons, hrec]
        rfl
      · rw [if_neg (fun hx => hq (hiff.mp hx)),
          if_neg (by simpa using hq)]
        rw [hrec]
        rfl

end fasttext

namespace fasttext

/-- The codepoint-level outer scan started at position `k` of `s0` emits the
spec's features for all starts from `k` on. -/
theorem cpAux_spec (args : Args) (nw : Nat) (s0 : List (List Nat)) :
    ∀ r k, s0.drop k = r →
      cpAux args nw r (decide (k = 0)) =
        (List.range' k (s0.length - k)).flatMap (fun i =>
          ((List.range' 1 (min args.maxn (s0.length - i))).filter fun n =>
            decide (args.minn ≤ n ∧
              ¬(n = 1 ∧ (i = 0 ∨ i + n = s0.length)))).map
            (fun n => nw + hash ((s0.drop i).take n).flatten % args.bucket)) := by
  intro r
  induction r with
  | nil =>
    intro k hk
    have hlen : s0.length ≤ k := by
      have h := congrArg List.length hk
      simp at h
      omega
    have h0 : s0.length - k = 0 := by omega
    rw [h0]
    rfl
  | cons cp r' ih =>
    intro k hk
    have hklt : k < s0.length := by
      have h := congrArg List.length hk
      simp at h
      omega
    have hk' : s0.drop (k + 1) = r' := by
      rw [← List.drop_drop, hk]
      rfl
    show cpLoop args nw (decide (k = 0)) (cp :: r') 1 [] ++
      cpAux args nw r' false = _
    rw [← hk]
    have hhead := cpLoop_spec args nw (decide (k = 0)) (s0.drop k)
      (s0.drop k) 0 rfl
    simp only [List.take_zero, List.flatten_nil, Nat.zero_add,
      List.length_drop, Nat.sub_zero] at hhead
    rw [hhead]
    have htail := ih (k + 1) hk'
    rw [show (decide (k + 1 = 0)) = false by simp] at htail
    rw [htail]
    have hc : s0.length - k = (s0.length - (k + 1)) + 1 := by omega
    rw [hc, List.range'_succ, List.flatMap_cons]
    congr 1
    congr 1
    rw [show s0.length - (k + 1) + 1 = s0.length - k by omega]
    refine List.filter_congr ?_
    intro m hm
    rw [List.mem_range'_1] at hm
    apply decide_eq_decide.mpr
    simp only [decide_eq_true_eq]
    constructor
    · rintro ⟨h1, h2⟩
      exact ⟨h1, fun ⟨e1, e2⟩ => h2 ⟨e1, by
        rcases e2 with e2 | e2
        · left; exact e2
        · right; omega⟩⟩
    · rintro ⟨h1, h2⟩
      exact ⟨h1, fun ⟨e1, e2⟩ => h2 ⟨e1, by
        rcases e2 with e2 | e2
        · left; exact e2
        · right; omega⟩⟩

/-- On a word given as valid UTF-8 codepoints, `computeNgrams` emits exactly
the spec's n-grams. -/
theorem computeNgrams_spec (args : Args) (nw : Nat)
    (cps : List (List Nat)) (hv : ∀ cp ∈ cps, ValidCp cp) :
    computeNgrams args nw cps.flatten = ngramSpec args nw cps := by
  unfold computeNgrams ngramSpec
  rw [computeNgramsAux_cp args nw cps hv true]
  have h := cpAux_spec args nw cps cps 0 rfl
  rw [show (decide ((0 : Nat) = 0)) = true from rfl] at h
  simp only [Nat.sub_zero, List.drop_zero] at h
  rw [h, List.range_eq_range']

end fasttext

namespace fasttext

/-- C5: character n-gram computation on the boundary-marked `"<hello>"` with
`minn = maxn = 3` emits exactly the five contiguous length-3 substrings
(boundary markers included), each as feature id `nwords + hash % bucket`;
in general, on a word made of valid UTF-8 codepoints it emits exactly, in
scan order, every contiguous codepoint substring whose codepoint length lies
in `[minn, maxn]`, except a length-1 substring sitting exactly at the start
or end boundary, each as `nwords + hash(substring) % bucket`. -/
theorem C5_ngram_characterization :
    (∀ args : Args, args.minn = 3 → args.maxn = 3 → ∀ nw : Nat,
      computeNgrams args nw helloWord =
        [[60, 104, 101], [104, 101, 108], [101, 108, 108],
         [108, 108, 111], [108, 111, 62]].map
          (fun sub => nw + hash sub % args.bucket)) ∧
    (∀ (args : Args) (nw : Nat) (cps : List (List Nat)),
      (∀ cp ∈ cps, ValidCp cp) →
      computeNgrams args nw cps.flatten = ngramSpec args nw cps) := by
  constructor
  · intro args h3 h6 nw
    obtain ⟨lab, model, minn, maxn, bucket, wn⟩ := args
    simp only at h3 h6
    subst h3 h6
    rfl
  · intro args nw cps hv
    exact computeNgrams_spec args nw cps hv

/-- Closed instance of C5: the `"<hello>"` scenario at `bucket = 10`,
`nwords = 2`, and the general characterization on the two-codepoint word
`"hé"` (`0x68`, `0xC3 0xA9`). -/
theorem C5_ngram_characterization_witness :
    computeNgrams { c1args with maxn := 3 } 2 helloWord =
      [[60, 104, 101], [104, 101, 108], [101, 108, 108],
       [108, 108, 111], [108, 111, 62]].map
        (fun sub => 2 + hash sub % 10) ∧
    computeNgrams c1args 2 [[104], [195, 169]].flatten =
      ngramSpec c1args 2 [[104], [195, 169]] :=
  ⟨C5_ngram_characterization.1 { c1args with maxn := 3 } rfl rfl 2,
   C5_ngram_characterization.2 c1args 2 [[104], [195, 169]] (by decide)⟩

end fasttext

namespace fasttext

/-- C8, amended: the prune pipeline is not idempotent — with selected ids
`[0, 1, 2, 3]` over the unchanged corpus `"a a\n"`, the first run installs
the `QuantizationMap` `[(4, 0), (1, 1)]` and keeps the id list, while the
second run on the pruned dictionary redirects `addNgrams` through that map,
tallies nothing for selected id `2`, and fails on the uninitialized winning
hash instead of reproducing the map. -/
theorem C8_prune_rerun :
    ∃ p : Dict × List Int,
      prune c1dict [0, 1, 2, 3] c1corpus (fun _ => 0) = some p ∧
      p.1.quantidx = [(4, 0), (1, 1)] ∧ p.2 = [0, 1, 2, 3] ∧
      prune p.1 [0, 1, 2, 3] c1corpus (fun _ => 0) = none := by
  have h1 : (prune c1dict [0, 1, 2, 3] c1corpus (fun _ => 0)).map
      (fun p => (p.1.quantidx, p.2)) =
      some ([(4, 0), (1, 1)], [0, 1, 2, 3]) := by decide
  have h2 : ((prune c1dict [0, 1, 2, 3] c1corpus (fun _ => 0)).bind
      fun p => (prune p.1 [0, 1, 2, 3] c1corpus (fun _ => 0)).map
        fun q => q.1.quantidx) = none := by decide
  cases hp : prune c1dict [0, 1, 2, 3] c1corpus (fun _ => 0) with
  | none => rw [hp] at h1; exact absurd h1 (by simp)
  | some p =>
    rw [hp] at h1 h2
    simp only [Option.map_some', Option.some.injEq, Prod.mk.injEq] at h1
    simp only [Option.some_bind] at h2
    exact ⟨p, rfl, h1.1, h1.2, Option.map_eq_none'.mp h2⟩

/-- C8, counterexample: running prune a second time with the same selected
ids over the same corpus does not reproduce the `QuantizationMap` of the
first run. -/
theorem C8_prune_idempotence_counterexample :
    ¬ (((prune c1dict [0, 1, 2, 3] c1corpus (fun _ => 0)).bind
        fun p => (prune p.1 [0, 1, 2, 3] c1corpus (fun _ => 0)).map
          fun q => q.1.quantidx) =
      (prune c1dict [0, 1, 2, 3] c1corpus (fun _ => 0)).map
        fun p => p.1.quantidx) := by decide

end fasttext
